import Mathlib

/-!
# Verification of the ClairS paired-tensor generation core

Shallow embedding of `src/create_pair_tensor.py` and
`src/select_hetero_snp_for_phasing.py`.

Python dictionaries are modelled as insertion-ordered association lists,
Python sets as `Finset` or dedup-inserting lists, generators as folds over
the incoming row list, and uncaught Python exceptions (`IndexError`,
`KeyError`) as `Except PyErr`.  Floating-point quantities (allele
frequencies, qualities) are modelled as rationals.
-/

namespace ClairS

/-- Uncaught Python exceptions that can escape the translated code. -/
inductive PyErr where
  | indexError : PyErr
  | keyError : PyErr
deriving DecidableEq, Repr

instance {ε α : Type} [DecidableEq ε] [DecidableEq α] :
    DecidableEq (Except ε α) := fun x y =>
  match x, y with
  | .error a, .error b =>
      if h : a = b then isTrue (by rw [h])
      else isFalse (fun hh => h (by injection hh))
  | .error _, .ok _ => isFalse (fun hh => Except.noConfusion hh)
  | .ok _, .error _ => isFalse (fun hh => Except.noConfusion hh)
  | .ok a, .ok b =>
      if h : a = b then isTrue (by rw [h])
      else isFalse (fun hh => h (by injection hh))

/-- Modelled from the spec: `shared/param.py` is not under `src/`.  The spec
fixes `no_of_positions = 2F+1` and `channel_size = 8`; the remaining fields
(`extend_bp`, the default minimum allele frequencies `min_af` and
`min_af_dict[platform]`) are kept abstract as profile fields. -/
structure Profile where
  flankingBaseNum : ℕ
  extendBp : ℕ
  minAf : ℚ
  minAfPlat : ℚ

/-- `no_of_positions = param.no_of_positions`; the spec fixes it to `2F+1`. -/
def noOfPositions (P : Profile) : ℕ := 2 * P.flankingBaseNum + 1

/-- `channel_size = param.channel_size`; the spec fixes it to `8`. -/
def channelSize : ℕ := 8

/-- `extend_bp_distance = no_of_positions + param.extend_bp`
(src/create_pair_tensor.py line 656). -/
def extendBpDistance (P : Profile) : ℤ := (noOfPositions P : ℤ) + P.extendBp

/-- Python `dict` lookup on an association list. -/
def dictFind {α β : Type} [DecidableEq α] (k : α) : List (α × β) → Option β
  | [] => none
  | (k0, v) :: rest => if k0 = k then some v else dictFind k rest

/-- Python `dict` assignment `d[k] = v`: overwrite in place, append new keys
at the end (Python dicts preserve insertion order). -/
def dictInsert {α β : Type} [DecidableEq α] (k : α) (v : β) :
    List (α × β) → List (α × β)
  | [] => [(k, v)]
  | (k0, v0) :: rest =>
      if k0 = k then (k0, v) :: rest else (k0, v0) :: dictInsert k v rest

/-- Python `d[k] += n` on a counting dict (`defaultdict(int)` /
`Counter`-style update): add to an existing key in place, append new keys at
the end. -/
def dictAdd {α : Type} [DecidableEq α] (k : α) (n : ℕ) :
    List (α × ℕ) → List (α × ℕ)
  | [] => [(k, n)]
  | (k0, c) :: rest =>
      if k0 = k then (k0, c + n) :: rest else (k0, c) :: dictAdd k n rest

/-- Fuel-based helper for `uniqKeepFirst`; the fuel is an upper bound on the
list length, so the recursion is structural and kernel-reducible. -/
def uniqKeepFirstAux {α : Type} [DecidableEq α] : ℕ → List α → List α
  | _, [] => []
  | 0, _ :: _ => []
  | n + 1, x :: xs => x :: uniqKeepFirstAux n (xs.filter (fun y => y ≠ x))

/-- `OrderedDict.fromkeys`: deduplicate keeping the first occurrence of each
element, preserving order. -/
def uniqKeepFirst {α : Type} [DecidableEq α] (l : List α) : List α :=
  uniqKeepFirstAux l.length l

lemma uniqKeepFirstAux_congr {α : Type} [DecidableEq α] :
    ∀ (n m : ℕ) (l : List α), l.length ≤ n → l.length ≤ m →
      uniqKeepFirstAux n l = uniqKeepFirstAux m l := by
  intro n
  induction n with
  | zero =>
      intro m l hn _
      have : l = [] := List.length_eq_zero.mp (Nat.le_zero.mp hn)
      subst this
      cases m <;> rfl
  | succ n ih =>
      intro m l hn hm
      cases l with
      | nil => cases m <;> rfl
      | cons x xs =>
          cases m with
          | zero => simp at hm
          | succ m =>
              show x :: uniqKeepFirstAux n (xs.filter (fun y => y ≠ x)) =
                x :: uniqKeepFirstAux m (xs.filter (fun y => y ≠ x))
              congr 1
              exact ih m (xs.filter (fun y => y ≠ x))
                (le_trans (xs.length_filter_le _)
                  (Nat.le_of_succ_le_succ (by simpa using hn)))
                (le_trans (xs.length_filter_le _)
                  (Nat.le_of_succ_le_succ (by simpa using hm)))

lemma uniqKeepFirst_cons {α : Type} [DecidableEq α] (x : α) (xs : List α) :
    uniqKeepFirst (x :: xs) =
      x :: uniqKeepFirst (xs.filter (fun y => y ≠ x)) := by
  show x :: uniqKeepFirstAux xs.length (xs.filter (fun y => y ≠ x)) =
    x :: uniqKeepFirstAux (xs.filter (fun y => y ≠ x)).length
      (xs.filter (fun y => y ≠ x))
  congr 1
  exact uniqKeepFirstAux_congr xs.length _ _ (xs.length_filter_le _) le_rfl

/-- `collections.Counter` over a list: one `(key, multiplicity)` entry per
distinct element, in first-occurrence order (Python dict order). -/
def pyCounter {α : Type} [DecidableEq α] (l : List α) : List (α × ℕ) :=
  (uniqKeepFirst l).map (fun k => (k, l.count k))

/-! ## Paired merge (`heapq_merge_generator_from`, lines 478-493) -/

/-- One step of the loop body of `heapq_merge_generator_from`: the state is
`(normal_candidates_set, emitted positions)`; on a tumor event the position
is yielded when it is in the set or the flag is false, and then discarded
from the set; on a normal event the position is inserted. -/
def heapqStep (skip : Bool) (st : Finset ℤ × List ℤ) (ev : ℤ × Bool) :
    Finset ℤ × List ℤ :=
  if ev.2 then
    if ev.1 ∈ st.1 ∨ skip = false then (st.1.erase ev.1, st.2 ++ [ev.1])
    else st
  else (insert ev.1 st.1, st.2)

/-- `heapq_merge_generator_from`: fold the merged `(pos, is_tumor)` event
stream, then the trailing loop over `tumor_candidates_set` — a set that is
never populated in the source, hence the empty list. -/
def heapq_merge_generator_from (skip : Bool) (events : List (ℤ × Bool)) :
    List ℤ :=
  let st := events.foldl (heapqStep skip) (∅, [])
  let tumorCandidates : List ℤ := []
  st.2 ++ tumorCandidates.filter (fun pos => pos ∈ st.1)

/-- Order produced by `heapq.merge` on `(pos, is_tumor)` tuples: lexicographic
with `False < True` in the second component. -/
def eventLE (a b : ℤ × Bool) : Prop :=
  a.1 < b.1 ∨ (a.1 = b.1 ∧ (a.2 = true → b.2 = true))

instance : DecidableRel eventLE := fun a b =>
  decidable_of_iff (a.1 < b.1 ∨ (a.1 = b.1 ∧ (a.2 = true → b.2 = true)))
    Iff.rfl

lemma heapq_count_aux :
    ∀ (events : List (ℤ × Bool)) (s : Finset ℤ) (out : List ℤ),
      events.Pairwise eventLE →
      (∀ q, out.count q ≤ 1) →
      (∀ q, out.count q = 1 → q ∉ s ∧ (q, false) ∉ events) →
      ∀ q, ((events.foldl (heapqStep true) (s, out)).2.count q ≤ 1) := by
  intro events
  induction events with
  | nil =>
      intro s out _ h1 _ q
      exact h1 q
  | cons ev rest ih =>
      intro s out hpw h1 h2 q
      have hpw' : rest.Pairwise eventLE := (List.pairwise_cons.mp hpw).2
      have hhead : ∀ e ∈ rest, eventLE ev e := (List.pairwise_cons.mp hpw).1
      rw [List.foldl_cons]
      rcases ev with ⟨p, b⟩
      cases b with
      | false =>
          have hstep : heapqStep true (s, out) (p, false) =
              (insert p s, out) := by simp [heapqStep]
          rw [hstep]
          refine ih (insert p s) out hpw' h1 ?_ q
          intro r hr
          obtain ⟨hr1, hr2⟩ := h2 r hr
          have hrp : r ≠ p := by
            intro he
            exact hr2 (by simp [he])
          constructor
          · simp [Finset.mem_insert, hrp, hr1]
          · intro hmem
            exact hr2 (by simp [hmem])
      | true =>
          by_cases hp : p ∈ s
          · have hstep : heapqStep true (s, out) (p, true) =
                (s.erase p, out ++ [p]) := by simp [heapqStep, hp]
            rw [hstep]
            have hout0 : out.count p = 0 := by
              rcases Nat.lt_or_ge (out.count p) 1 with h | h
              · omega
              · have : out.count p = 1 := le_antisymm (h1 p) h
                exact absurd hp (h2 p this).1.elim
            refine ih (s.erase p) (out ++ [p]) hpw' ?_ ?_ q
            · intro r
              rw [List.count_append]
              by_cases hrp : r = p
              · subst hrp
                simp [hout0]
              · simp [List.count_singleton', hrp]
                exact h1 r
            · intro r hr
              rw [List.count_append] at hr
              by_cases hrp : r = p
              · subst hrp
                constructor
                · exact Finset.not_mem_erase r s
                · intro hmem
                  have := hhead (r, false) hmem
                  simp [eventLE] at this
              · simp [List.count_singleton', hrp] at hr
                obtain ⟨hr1, hr2⟩ := h2 r (by omega)
                constructor
                · intro hme
                  exact hr1 (Finset.mem_of_mem_erase hme)
                · intro hmem
                  exact hr2 (by simp [hmem])
          · have hstep : heapqStep true (s, out) (p, true) = (s, out) := by
              simp [heapqStep, hp]
            rw [hstep]
            refine ih s out hpw' h1 ?_ q
            intro r hr
            obtain ⟨hr1, hr2⟩ := h2 r hr
            exact ⟨hr1, fun hmem => hr2 (by simp [hmem])⟩

lemma heapq_mem_aux :
    ∀ (events : List (ℤ × Bool)) (s : Finset ℤ) (out : List ℤ)
      (N : ℤ → Prop),
      (∀ q ∈ s, N q) → (∀ q ∈ out, N q) →
      (∀ q, (q, false) ∈ events → N q) →
      ∀ q ∈ (events.foldl (heapqStep true) (s, out)).2, N q := by
  intro events
  induction events with
  | nil =>
      intro s out N _ h2 _ q hq
      exact h2 q hq
  | cons ev rest ih =>
      intro s out N h1 h2 h3 q hq
      rw [List.foldl_cons] at hq
      rcases ev with ⟨p, b⟩
      cases b with
      | false =>
          have hstep : heapqStep true (s, out) (p, false) =
              (insert p s, out) := by simp [heapqStep]
          rw [hstep] at hq
          refine ih (insert p s) out N ?_ h2 ?_ q hq
          · intro r hr
            rcases Finset.mem_insert.mp hr with h | h
            · exact h ▸ h3 p (by simp)
            · exact h1 r h
          · intro r hr
            exact h3 r (by simp [hr])
      | true =>
          by_cases hp : p ∈ s
          · have hstep : heapqStep true (s, out) (p, true) =
                (s.erase p, out ++ [p]) := by simp [heapqStep, hp]
            rw [hstep] at hq
            refine ih (s.erase p) (out ++ [p]) N ?_ ?_ ?_ q hq
            · intro r hr
              exact h1 r (Finset.mem_of_mem_erase hr)
            · intro r hr
              rcases List.mem_append.mp hr with h | h
              · exact h2 r h
              · have : r = p := by simpa using h
                exact this ▸ h1 p hp
            · intro r hr
              exact h3 r (by simp [hr])
          · have hstep : heapqStep true (s, out) (p, true) = (s, out) := by
              simp [heapqStep, hp]
            rw [hstep] at hq
            refine ih s out N h1 h2 ?_ q hq
            intro r hr
            exact h3 r (by simp [hr])

/-- C1: in `heapq_merge_generator_from`, a tumor event at `pos` yields `pos`
iff `pos` is in the normal-seen set or `skip_if_normal_empty` is false; every
yield erases `pos` from the set; with the flag true, each position is emitted
at most once over a sorted merged stream, and every emitted position was
observed as a normal event. -/
theorem heapq_merge_spec (skip : Bool) (events : List (ℤ × Bool))
    (s : Finset ℤ) (out : List ℤ) (p : ℤ)
    (hsorted : events.Pairwise eventLE) :
    (((heapqStep skip (s, out) (p, true)).2.length > out.length) ↔
      (p ∈ s ∨ skip = false))
    ∧ p ∉ (heapqStep skip (s, out) (p, true)).1
    ∧ (skip = true →
        ∀ q, (heapq_merge_generator_from skip events).count q ≤ 1)
    ∧ (skip = true →
        ∀ q ∈ heapq_merge_generator_from skip events, (q, false) ∈ events) := by
  refine ⟨?_, ?_, ?_, ?_⟩
  · by_cases h : p ∈ s ∨ skip = false
    · simp only [heapqStep, if_pos h]
      simpa using h
    · simp only [heapqStep]
      rw [if_pos trivial, if_neg h]
      simpa using h
  · by_cases h : p ∈ s ∨ skip = false
    · simp only [heapqStep, if_pos h]
      exact Finset.not_mem_erase p s
    · simp only [heapqStep]
      rw [if_pos trivial, if_neg h]
      intro hmem
      exact h (Or.inl hmem)
  · intro hskip q
    subst hskip
    unfold heapq_merge_generator_from
    simp only [List.filter_nil, List.append_nil]
    refine heapq_count_aux events ∅ [] hsorted ?_ ?_ q
    · intro r
      simp
    · intro r hr
      simp at hr
  · intro hskip q hq
    subst hskip
    unfold heapq_merge_generator_from at hq
    simp only [List.filter_nil, List.append_nil] at hq
    refine heapq_mem_aux events ∅ [] (fun r => (r, false) ∈ events) ?_ ?_
      (fun r hr => hr) q hq
    · intro r hr
      simp at hr
    · intro r hr
      simp at hr

/-- Witness for C1 at the concrete merged stream
`[(1, normal), (1, tumor)]` with the flag on. -/
theorem heapq_merge_witness :
    (([((1 : ℤ), false), (1, true)] : List (ℤ × Bool)).Pairwise eventLE)
    ∧ ((((heapqStep true ((∅ : Finset ℤ), ([] : List ℤ)) (1, true)).2.length >
          ([] : List ℤ).length) ↔ ((1 : ℤ) ∈ (∅ : Finset ℤ) ∨ true = false))
      ∧ (1 : ℤ) ∉ (heapqStep true ((∅ : Finset ℤ), ([] : List ℤ)) (1, true)).1
      ∧ (true = true →
          ∀ q, (heapq_merge_generator_from true
            [((1 : ℤ), false), (1, true)]).count q ≤ 1)
      ∧ (true = true →
          ∀ q ∈ heapq_merge_generator_from true [((1 : ℤ), false), (1, true)],
            (q, false) ∈ ([((1 : ℤ), false), (1, true)] : List (ℤ × Bool)))) :=
  ⟨by decide,
   heapq_merge_spec true [((1 : ℤ), false), (1, true)] ∅ [] 1 (by decide)⟩

/-! ## Pileup base-string parsing (`decode_pileup_bases`, lines 207-229) -/

/-- The four upper-case reference bases. -/
def ACGTChars : List Char := ['A', 'C', 'G', 'T']

/-- `advance = advance * 10 + int(num)` over a digit run. -/
def natFromDigits (ds : List Char) : ℕ :=
  ds.foldl (fun a c => a * 10 + (c.toNat - 48)) 0

/-- The scanning while-loop of `decode_pileup_bases` (lines 209-229).  The
accumulator holds the parsed `base_list` in reverse.  `none` models the
uncaught `IndexError` raised when a `+`/`-` digit run reaches the end of the
string (`pileup_bases[base_idx]` out of range) or when an indel marker has no
preceding base (`base_list[-1]` on an empty list). -/
def parseLoop : ℕ → List Char → List (Char × String) →
    Option (List (Char × String))
  | _, [], acc => some acc.reverse
  | 0, _ :: _, _ => none
  | fuel + 1, c :: rest, acc =>
    if c = '+' ∨ c = '-' then
      let ds := rest.takeWhile (fun d => d.isDigit)
      if ds.length = rest.length then none
      else
        let advance := natFromDigits ds
        let seq := (rest.drop ds.length).take advance
        match acc with
        | [] => none
        | (b0, _) :: tl =>
            parseLoop fuel ((rest.drop ds.length).drop advance)
              ((b0, String.mk (c :: seq)) :: tl)
    else if c ∈ (['A', 'C', 'G', 'T', 'N', 'a', 'c', 'g', 't', 'n', '#', '*'] :
        List Char) then
      parseLoop fuel rest ((c, "") :: acc)
    else if c = '^' then
      match rest with
      | [] => some acc.reverse
      | _ :: rest2 => parseLoop fuel rest2 acc
    else parseLoop fuel rest acc

/-- Parse a `samtools mpileup` bases column into the `base_list` of
`(base, indel)` pairs.  The fuel is the string length, an upper bound on the
number of loop iterations since the scan index strictly increases. -/
def parsePileupBases (s : String) : Option (List (Char × String)) :=
  parseLoop s.toList.length s.toList []

/-- One iteration of the loop over `base_counter.items()` (lines 236-245),
folding `(pileup_dict, depth)`.  The source takes the `Counter` over the
strings `''.join(item)`; since the base component is a single character that
join is in bijection with the `(base, indel)` pair, so the counter is taken
over the pairs directly and `key[0]`/`key[1]` become the base character and
the head of the indel string. -/
def pileupStep (pd : List (Char × ℕ) × ℕ) (item : (Char × String) × ℕ) :
    List (Char × ℕ) × ℕ :=
  let key := item.1
  let count := item.2
  let st :=
    if key.1.toUpper ∈ ACGTChars then
      (dictAdd key.1.toUpper count pd.1, pd.2 + count)
    else if key.1 = '#' ∨ key.1 = '*' then (pd.1, pd.2 + count)
    else pd
  if key.2.toList.head? = some '+' then (dictAdd 'I' count st.1, st.2)
  else if key.2.toList.head? = some '-' then (dictAdd 'D' count st.1, st.2)
  else st

/-- Fold all counter items into `(pileup_dict, depth)`. -/
def pileupFold (items : List ((Char × String) × ℕ)) : List (Char × ℕ) × ℕ :=
  items.foldl pileupStep ([], 0)

/-- The AF-gate loop over the count-sorted `pileup_list` (lines 257-265),
with its early `break` once one of the two flags is set. -/
def afLoop (referenceBase : Char) (tauSnv tauIndel denom : ℚ) :
    List (Char × ℕ) → Bool → Bool → Bool × Bool
  | [], ps, pi => (ps, pi)
  | (item, count) :: rest, ps, pi =>
    if ps || pi then (ps, pi)
    else if item = referenceBase then
      afLoop referenceBase tauSnv tauIndel denom rest ps pi
    else if item = 'I' ∨ item = 'D' then
      afLoop referenceBase tauSnv tauIndel denom rest ps
        (pi || decide ((count : ℚ) / denom ≥ tauIndel))
    else
      afLoop referenceBase tauSnv tauIndel denom rest
        (ps || decide ((count : ℚ) / denom ≥ tauSnv)) pi

/-- Result record of `decode_pileup_bases`; `depth = none` models the
`None` returned on the candidate-bypass path. -/
structure DecodeOut where
  base_list : List (Char × String)
  depth : Option ℕ
  pass_af : Bool
  af : ℚ
deriving DecidableEq

/-- `decode_pileup_bases` (lines 187-273). -/
def decode_pileup_bases (P : Profile) (pos : ℤ) (pileupBases : String)
    (referenceBase : Char) (minimumSnvAf minimumIndelAf : ℚ)
    (hasPileupCandidates : Bool) (candidatesTypeDict : List (ℤ × String))
    (isTumor : Bool) : Option DecodeOut :=
  match parsePileupBases pileupBases with
  | none => none
  | some baseList =>
    if hasPileupCandidates ∧
        ((dictFind pos candidatesTypeDict).isNone ∨ isTumor = false) then
      some ⟨baseList, none, true, 1⟩
    else
      let pd := pileupFold (pyCounter baseList)
      let tauSnv := if minimumSnvAf > 0 then minimumSnvAf else P.minAf
      let tauIndel := if minimumIndelAf > 0 then minimumIndelAf else P.minAfPlat
      let denominator : ℚ := if pd.2 > 0 then (pd.2 : ℚ) else 1
      let pileupList := List.insertionSort (fun a b => b.2 ≤ a.2) pd.1
      let flags := afLoop referenceBase tauSnv tauIndel denominator
        pileupList false false
      let af0 : ℚ := if pileupList.length > 1 then
        ((pileupList.getD 1 (' ', 0)).2 : ℚ) / denominator else 0
      let af : ℚ := if pileupList.length ≥ 1 ∧
          (pileupList.getD 0 (' ', 0)).1 ≠ referenceBase then
        ((pileupList.getD 0 (' ', 0)).2 : ℚ) / denominator else af0
      some ⟨baseList, some pd.2, flags.1 || flags.2, af⟩

/-- Reads whose upper-cased base is one of A,C,G,T with base `b`. -/
def countBaseUpper (bl : List (Char × String)) (b : Char) : ℕ :=
  (bl.filter (fun e => e.1.toUpper = b)).length

/-- Reads carrying an indel whose annotation starts with `c`. -/
def countIndelStart (bl : List (Char × String)) (c : Char) : ℕ :=
  (bl.filter (fun e => e.2.toList.head? = some c)).length

/-- Depth as counted by the decoder: reads whose upper-cased base is in
A,C,G,T plus reads marked `#` or `*`. -/
def depthOf (bl : List (Char × String)) : ℕ :=
  (bl.filter (fun e => e.1.toUpper ∈ ACGTChars ∨ e.1 = '#' ∨ e.1 = '*')).length

/-! ### Counting lemmas relating the decoder's folds to direct counts -/

/-- Lookup with default `0` (a `defaultdict(int)` read). -/
def dFindD {α : Type} [DecidableEq α] (x : α) (l : List (α × ℕ)) : ℕ :=
  (dictFind x l).getD 0

lemma dFindD_dictAdd {α : Type} [DecidableEq α] (k x : α) (n : ℕ) :
    ∀ l : List (α × ℕ),
      dFindD x (dictAdd k n l) = dFindD x l + if x = k then n else 0 := by
  intro l
  induction l with
  | nil =>
      by_cases h1 : k = x <;> by_cases h3 : x = k <;>
        simp_all [dFindD, dictAdd, dictFind]
  | cons e rest ih =>
      rcases e with ⟨k0, c⟩
      by_cases h1 : k0 = k <;> by_cases h2 : k0 = x <;>
        by_cases h3 : x = k <;>
          simp_all [dFindD, dictAdd, dictFind]

lemma foldl_additive {σ ι : Type} (step : σ → ι → σ) (m : σ → ℕ) (w : ι → ℕ)
    (h : ∀ s i, m (step s i) = m s + w i) :
    ∀ (l : List ι) (s : σ), m (l.foldl step s) = m s + (l.map w).sum := by
  intro l
  induction l with
  | nil => intro s; simp
  | cons i rest ih =>
      intro s
      rw [List.foldl_cons, ih (step s i), h s i]
      simp [Nat.add_assoc]

/-- Per-element contribution of a counter key to `pileup_dict[x]`. -/
def contrib (x : Char) (key : Char × String) : ℕ :=
  (if x = key.1.toUpper ∧ key.1.toUpper ∈ ACGTChars then 1 else 0) +
  (if x = 'I' ∧ key.2.toList.head? = some '+' then 1 else 0) +
  (if x = 'D' ∧ key.2.toList.head? = some '-' then 1 else 0)

/-- Per-element contribution of a counter key to `depth`. -/
def dContrib (key : Char × String) : ℕ :=
  if key.1.toUpper ∈ ACGTChars ∨ key.1 = '#' ∨ key.1 = '*' then 1 else 0

lemma dFindD_pileupStep (x : Char) (pd : List (Char × ℕ) × ℕ)
    (it : (Char × String) × ℕ) :
    dFindD x (pileupStep pd it).1 = dFindD x pd.1 + contrib x it.1 * it.2 := by
  rcases it with ⟨⟨b, ind⟩, c⟩
  simp only [pileupStep, contrib]
  by_cases hP : ind.toList.head? = some '+'
  · have hM : ¬ind.toList.head? = some '-' := by rw [hP]; simp
    by_cases hA : b.toUpper ∈ ACGTChars <;> by_cases hB : b = '#' ∨ b = '*' <;>
      simp [hA, hB, hP, hM, dFindD_dictAdd] <;> (try split_ifs) <;>
        (try simp_all [dFindD_dictAdd]) <;> (try split_ifs) <;>
          (try simp_all) <;> (try ring) <;> omega
  · by_cases hM : ind.toList.head? = some '-' <;>
      by_cases hA : b.toUpper ∈ ACGTChars <;>
        by_cases hB : b = '#' ∨ b = '*' <;>
          simp [hA, hB, hP, hM, dFindD_dictAdd] <;> (try split_ifs) <;>
            (try simp_all [dFindD_dictAdd]) <;> (try split_ifs) <;>
              (try simp_all) <;> (try ring) <;> omega

lemma depth_pileupStep (pd : List (Char × ℕ) × ℕ) (it : (Char × String) × ℕ) :
    (pileupStep pd it).2 = pd.2 + dContrib it.1 * it.2 := by
  rcases it with ⟨⟨b, ind⟩, c⟩
  simp only [pileupStep, dContrib]
  by_cases hA : b.toUpper ∈ ACGTChars <;>
    by_cases hB : b = '#' ∨ b = '*' <;>
      by_cases hP : ind.data.head? = some '+' <;>
        by_cases hM : ind.data.head? = some '-' <;>
          simp [hA, hB, hP, hM] <;> (try split_ifs) <;> (try simp_all) <;>
            (try ring) <;> omega

lemma pileupFold_find (x : Char) (items : List ((Char × String) × ℕ)) :
    dFindD x (pileupFold items).1 =
      (items.map (fun it => contrib x it.1 * it.2)).sum := by
  have h := foldl_additive pileupStep (fun s => dFindD x s.1)
    (fun it => contrib x it.1 * it.2)
    (fun s i => dFindD_pileupStep x s i) items ([], 0)
  simpa [pileupFold, dFindD, dictFind] using h

lemma pileupFold_depth (items : List ((Char × String) × ℕ)) :
    (pileupFold items).2 = (items.map (fun it => dContrib it.1 * it.2)).sum := by
  have h := foldl_additive pileupStep (fun s => s.2)
    (fun it => dContrib it.1 * it.2)
    (fun s i => depth_pileupStep s i) items ([], 0)
  simpa [pileupFold] using h

lemma mem_uniqKeepFirst {α : Type} [DecidableEq α] :
    ∀ (n : ℕ) (l : List α), l.length ≤ n → ∀ x ∈ uniqKeepFirst l, x ∈ l := by
  intro n
  induction n with
  | zero =>
      intro l hl x hx
      have : l = [] := List.length_eq_zero.mp (Nat.le_zero.mp hl)
      subst this
      simpa [uniqKeepFirst, uniqKeepFirstAux] using hx
  | succ n ih =>
      intro l hl x hx
      cases l with
      | nil => simpa [uniqKeepFirst, uniqKeepFirstAux] using hx
      | cons a t =>
          rw [uniqKeepFirst_cons] at hx
          rcases List.mem_cons.mp hx with h | h
          · exact h ▸ List.mem_cons_self a t
          · have hlen : (t.filter (fun y => y ≠ a)).length ≤ n :=
              le_trans (t.length_filter_le _)
                (Nat.le_of_succ_le_succ (by simpa using hl))
            have := ih _ hlen x h
            exact List.mem_cons_of_mem a (List.mem_of_mem_filter this)

lemma pyCounter_cons {α : Type} [DecidableEq α] (a : α) (l : List α) :
    pyCounter (a :: l) =
      (a, l.count a + 1) :: pyCounter (l.filter (fun y => y ≠ a)) := by
  unfold pyCounter
  rw [uniqKeepFirst_cons]
  simp only [List.map_cons, List.count_cons_self]
  congr 1
  apply List.map_congr_left
  intro k hk
  have hkl : k ∈ l.filter (fun y => y ≠ a) :=
    mem_uniqKeepFirst _ _ le_rfl k hk
  have hka : k ≠ a := by simpa using (List.mem_filter.mp hkl).2
  rw [List.count_cons_of_ne hka, List.count_filter]
  simp [hka]

lemma weight_split {α : Type} [DecidableEq α] (w : α → ℕ) (a : α) :
    ∀ t : List α,
      (t.map w).sum =
        w a * t.count a + ((t.filter (fun y => y ≠ a)).map w).sum := by
  intro t
  induction t with
  | nil => simp
  | cons b t ih =>
      by_cases hb : b = a
      · subst hb
        simp [List.filter_cons, ih]
        ring
      · simp [List.filter_cons, hb, List.count_cons_of_ne
          (fun h => hb h.symm), ih]
        ring

lemma counter_weight_aux {α : Type} [DecidableEq α] (w : α → ℕ) :
    ∀ (n : ℕ) (l : List α), l.length ≤ n →
      ((pyCounter l).map (fun kc => w kc.1 * kc.2)).sum = (l.map w).sum := by
  intro n
  induction n with
  | zero =>
      intro l hl
      have : l = [] := List.length_eq_zero.mp (Nat.le_zero.mp hl)
      subst this
      simp [pyCounter, uniqKeepFirst, uniqKeepFirstAux]
  | succ n ih =>
      intro l hl
      cases l with
      | nil => simp [pyCounter, uniqKeepFirst, uniqKeepFirstAux]
      | cons a t =>
          rw [pyCounter_cons]
          simp only [List.map_cons, List.sum_cons]
          rw [ih (t.filter (fun y => y ≠ a))
            (le_trans (t.length_filter_le _)
              (Nat.le_of_succ_le_succ (by simpa using hl)))]
          rw [weight_split w a t]
          ring

lemma counter_weight {α : Type} [DecidableEq α] (w : α → ℕ) (l : List α) :
    ((pyCounter l).map (fun kc => w kc.1 * kc.2)).sum = (l.map w).sum :=
  counter_weight_aux w l.length l le_rfl

lemma sum_map_ite {β : Type} (p : β → Bool) :
    ∀ l : List β,
      (l.map (fun e => if p e then 1 else 0)).sum = (l.filter p).length := by
  intro l
  induction l with
  | nil => simp
  | cons a t ih =>
      simp only [List.map_cons, List.sum_cons, List.filter_cons]
      by_cases h : p a <;> simp [h, ih] <;> omega

lemma keys_dictAdd {α : Type} [DecidableEq α] (k : α) (n : ℕ) :
    ∀ l : List (α × ℕ),
      (dictAdd k n l).map Prod.fst =
        if k ∈ l.map Prod.fst then l.map Prod.fst
        else l.map Prod.fst ++ [k] := by
  intro l
  induction l with
  | nil => simp [dictAdd]
  | cons e rest ih =>
      rcases e with ⟨k0, c⟩
      by_cases h0 : k0 = k
      · subst h0
        simp [dictAdd]
      · simp [dictAdd, h0, ih, fun h : k = k0 => h0 h.symm]
        split_ifs <;> simp_all

lemma nodupKeys_dictAdd {α : Type} [DecidableEq α] {k : α} {n : ℕ}
    {l : List (α × ℕ)} (h : (l.map Prod.fst).Nodup) :
    ((dictAdd k n l).map Prod.fst).Nodup := by
  rw [keys_dictAdd]
  split_ifs with hk
  · exact h
  · exact List.Nodup.append h (List.nodup_singleton k)
      (by simpa [List.disjoint_singleton] using hk)

lemma mem_keys_dictAdd {α : Type} [DecidableEq α] {x k : α} {n : ℕ}
    {l : List (α × ℕ)} (h : x ∈ (dictAdd k n l).map Prod.fst) :
    x ∈ l.map Prod.fst ∨ x = k := by
  rw [keys_dictAdd] at h
  split_ifs at h with hk
  · exact Or.inl h
  · rcases List.mem_append.mp h with h | h
    · exact Or.inl h
    · exact Or.inr (by simpa using h)

/-- Keys that `pileupStep` can introduce. -/
def pileupKey (x : Char) : Prop := x ∈ ACGTChars ∨ x = 'I' ∨ x = 'D'

lemma pileupStep_keys {pd : List (Char × ℕ) × ℕ} {it : (Char × String) × ℕ}
    {x : Char} (h : x ∈ ((pileupStep pd it).1.map Prod.fst)) :
    x ∈ pd.1.map Prod.fst ∨ pileupKey x := by
  rcases it with ⟨⟨b, ind⟩, c⟩
  simp only [pileupStep] at h
  split_ifs at h <;>
    (try rcases mem_keys_dictAdd h with h | h) <;>
      (try rcases mem_keys_dictAdd h with h | h) <;>
        first
          | exact Or.inl h
          | exact Or.inr (by simp_all [pileupKey])

lemma pileupStep_nodupKeys {pd : List (Char × ℕ) × ℕ}
    {it : (Char × String) × ℕ} (h : (pd.1.map Prod.fst).Nodup) :
    (((pileupStep pd it).1).map Prod.fst).Nodup := by
  rcases it with ⟨⟨b, ind⟩, c⟩
  simp only [pileupStep]
  split_ifs <;>
    first
      | exact nodupKeys_dictAdd (nodupKeys_dictAdd h)
      | exact nodupKeys_dictAdd h
      | exact h

lemma pileupFold_keys (items : List ((Char × String) × ℕ)) :
    (∀ x ∈ ((pileupFold items).1.map Prod.fst), pileupKey x)
    ∧ (((pileupFold items).1.map Prod.fst).Nodup) := by
  have main : ∀ (l : List ((Char × String) × ℕ)) (pd : List (Char × ℕ) × ℕ),
      (∀ x ∈ (pd.1.map Prod.fst), pileupKey x) → (pd.1.map Prod.fst).Nodup →
      (∀ x ∈ ((l.foldl pileupStep pd).1.map Prod.fst), pileupKey x)
      ∧ (((l.foldl pileupStep pd).1.map Prod.fst).Nodup) := by
    intro l
    induction l with
    | nil => intro pd h1 h2; exact ⟨h1, h2⟩
    | cons it rest ih =>
        intro pd h1 h2
        rw [List.foldl_cons]
        refine ih (pileupStep pd it) ?_ (pileupStep_nodupKeys h2)
        intro x hx
        rcases pileupStep_keys hx with h | h
        · exact h1 x h
        · exact h
  exact main items ([], 0) (by simp) (by simp)

lemma dictFind_eq_some_of_mem {α β : Type} [DecidableEq α] {x : α} {v : β} :
    ∀ {l : List (α × β)}, (l.map Prod.fst).Nodup → (x, v) ∈ l →
      dictFind x l = some v := by
  intro l
  induction l with
  | nil => intro _ h; simp at h
  | cons e rest ih =>
      rcases e with ⟨k0, v0⟩
      intro hnd hmem
      simp only [List.map_cons, List.nodup_cons] at hnd
      rcases List.mem_cons.mp hmem with h | h
      · rw [Prod.mk.injEq] at h
        simp [dictFind, h.1, h.2]
      · have hk0 : k0 ≠ x := by
          intro he
          exact hnd.1 (he ▸ (List.mem_map.mpr ⟨(x, v), h, rfl⟩))
        simp [dictFind, hk0]
        exact ih hnd.2 h

lemma mem_of_dictFind_eq_some {α β : Type} [DecidableEq α] {x : α} {v : β} :
    ∀ {l : List (α × β)}, dictFind x l = some v → (x, v) ∈ l := by
  intro l
  induction l with
  | nil => intro h; simp [dictFind] at h
  | cons e rest ih =>
      rcases e with ⟨k0, v0⟩
      intro h
      by_cases hk : k0 = x
      · subst hk
        simp [dictFind] at h
        simp [h]
      · simp [dictFind, hk] at h
        exact List.mem_cons_of_mem _ (ih h)

lemma dictFind_of_dFindD_pos {α : Type} [DecidableEq α] {x : α}
    {l : List (α × ℕ)} (h : 0 < dFindD x l) :
    dictFind x l = some (dFindD x l) := by
  unfold dFindD at h ⊢
  cases hf : dictFind x l with
  | none => rw [hf] at h; simp at h
  | some c => simp

/-- Whether one entry of `pileup_list` makes the AF-gate loop set a flag. -/
def passItem (referenceBase : Char) (tauSnv tauIndel denom : ℚ)
    (kc : Char × ℕ) : Bool :=
  if kc.1 = referenceBase then false
  else if kc.1 = 'I' ∨ kc.1 = 'D' then decide ((kc.2 : ℚ) / denom ≥ tauIndel)
  else decide ((kc.2 : ℚ) / denom ≥ tauSnv)

lemma afLoop_any (rB : Char) (ts ti denom : ℚ) :
    ∀ (l : List (Char × ℕ)) (ps pi : Bool),
      ((afLoop rB ts ti denom l ps pi).1 || (afLoop rB ts ti denom l ps pi).2)
        = (ps || pi || l.any (passItem rB ts ti denom)) := by
  intro l
  induction l with
  | nil => intro ps pi; simp [afLoop]
  | cons kc rest ih =>
      intro ps pi
      rcases kc with ⟨item, count⟩
      by_cases hbreak : (ps || pi) = true
      · simp [afLoop, hbreak]
      · have hps : ps = false := by
          cases ps
          · rfl
          · simp at hbreak
        have hpi : pi = false := by
          cases pi
          · rfl
          · simp [hps] at hbreak
        subst hps
        subst hpi
        by_cases hit : item = rB
        · simp [afLoop, hit, ih, passItem]
        · by_cases hID : item = 'I' ∨ item = 'D'
          · simp [afLoop, hit, hID, ih, passItem]
          · simp [afLoop, hit, hID, ih, passItem]

lemma sum_map_ite_p {β : Type} (p : β → Prop) [DecidablePred p] :
    ∀ l : List β,
      (l.map (fun e => if p e then 1 else 0)).sum =
        (l.filter (fun e => decide (p e))).length := by
  intro l
  induction l with
  | nil => simp
  | cons a t ih =>
      simp only [List.map_cons, List.sum_cons, List.filter_cons]
      by_cases h : p a <;> simp [h, ih] <;> omega

lemma dFindD_counter_base (bl : List (Char × String)) (b : Char)
    (hb : b ∈ ACGTChars) :
    dFindD b (pileupFold (pyCounter bl)).1 = countBaseUpper bl b := by
  rw [pileupFold_find]
  rw [counter_weight (fun key : Char × String => contrib b key) bl]
  have hbI : b ≠ 'I' := by fin_cases hb <;> decide
  have hbD : b ≠ 'D' := by fin_cases hb <;> decide
  have hpt : ∀ e ∈ bl, contrib b e =
      (fun e : Char × String => if e.1.toUpper = b then 1 else 0) e := by
    intro e _
    simp only [contrib]
    by_cases h1 : e.1.toUpper = b
    · simp [h1, hb, hbI, hbD]
    · have hcond : ¬(b = e.1.toUpper ∧ e.1.toUpper ∈ ACGTChars) := by
        rintro ⟨hh, _⟩
        exact h1 hh.symm
      simp [h1, hbI, hbD, hcond]
  rw [List.map_congr_left hpt]
  exact sum_map_ite_p (fun e : Char × String => e.1.toUpper = b) bl

lemma dFindD_counter_ins (bl : List (Char × String)) :
    dFindD 'I' (pileupFold (pyCounter bl)).1 = countIndelStart bl '+' := by
  rw [pileupFold_find]
  rw [counter_weight (fun key : Char × String => contrib 'I' key) bl]
  have hpt : ∀ e ∈ bl, contrib 'I' e =
      (fun e : Char × String =>
        if e.2.toList.head? = some '+' then 1 else 0) e := by
    intro e _
    simp only [contrib]
    have h1 : ¬(('I' : Char) = e.1.toUpper ∧ e.1.toUpper ∈ ACGTChars) := by
      rintro ⟨hh, hm⟩
      rw [← hh] at hm
      simp [ACGTChars] at hm
    simp [h1]
  rw [List.map_congr_left hpt]
  exact sum_map_ite_p
    (fun e : Char × String => e.2.toList.head? = some '+') bl

lemma dFindD_counter_del (bl : List (Char × String)) :
    dFindD 'D' (pileupFold (pyCounter bl)).1 = countIndelStart bl '-' := by
  rw [pileupFold_find]
  rw [counter_weight (fun key : Char × String => contrib 'D' key) bl]
  have hpt : ∀ e ∈ bl, contrib 'D' e =
      (fun e : Char × String =>
        if e.2.toList.head? = some '-' then 1 else 0) e := by
    intro e _
    simp only [contrib]
    have h1 : ¬(('D' : Char) = e.1.toUpper ∧ e.1.toUpper ∈ ACGTChars) := by
      rintro ⟨hh, hm⟩
      rw [← hh] at hm
      simp [ACGTChars] at hm
    simp [h1]
  rw [List.map_congr_left hpt]
  exact sum_map_ite_p
    (fun e : Char × String => e.2.toList.head? = some '-') bl

lemma pileupFold_counter_depth (bl : List (Char × String)) :
    (pileupFold (pyCounter bl)).2 = depthOf bl := by
  rw [pileupFold_depth]
  rw [counter_weight (fun key : Char × String => dContrib key) bl]
  have hpt : ∀ e ∈ bl, dContrib e =
      (fun e : Char × String =>
        if e.1.toUpper ∈ ACGTChars ∨ e.1 = '#' ∨ e.1 = '*' then 1 else 0) e :=
    fun e _ => rfl
  rw [List.map_congr_left hpt]
  exact sum_map_ite_p
    (fun e : Char × String => e.1.toUpper ∈ ACGTChars ∨ e.1 = '#' ∨ e.1 = '*')
    bl

/-! ## Per-stream candidate generator
(`samtools_pileup_generator_from`, lines 667-751) -/

/-- The `Position` record (lines 60-80), restricted to the fields the
generator writes; raw quality strings are kept as character lists. -/
structure Position where
  pos : ℤ
  ref_base : Char
  read_name_list : List String
  base_list : List (Char × String)
  raw_base_quality : List Char
  raw_mapping_quality : List Char
  af : ℚ
  depth : Option ℕ
deriving DecidableEq

/-- Per-stream configuration captured from the closure of
`samtools_pileup_generator_from`.  `refAt pos` models
`reference_sequence[pos - reference_start].upper()`; `extendBed = none`
models the absence of an extend BED (`is_region_in` is an external
collaborator, modelled as the interval predicate). -/
structure GenCfg where
  isTumor : Bool
  hasPileupCandidates : Bool
  candidatesTypeDict : List (ℤ × String)
  extendBed : Option (ℤ → ℤ → Bool)
  ctgRange : Option (ℤ × ℤ)
  refAt : ℤ → Char
  isIlmn : Bool
  phasingInBam : Bool
  knownVariants : Option (List ℤ)
  minSnvAf : ℚ
  minIndelAf : ℚ
  minCoverage : ℚ

/-- Mutable state of one generator: the candidate queue and cursor, the
retention window `pileup_dict`, and the per-sample `hap_dict`. -/
structure GenState where
  candidate_pos_list : List ℤ
  current_pos_index : ℕ
  pileup_dict : List (ℤ × Position)
  hap_dict : List (String × ℕ)
deriving DecidableEq

/-- One pre-split `samtools mpileup` row (columns 2, 5, 6, 7, 8, 9). -/
structure RowIn where
  pos : ℤ
  pileup_bases : String
  raw_base_quality : String
  raw_mapping_quality : String
  read_name_list : List String
  phasing_info : List String
deriving DecidableEq

/-- The two candidate-append conditions of the generator (lines 719-724). -/
def candidateAppend (cfg : GenCfg) (pos : ℤ) (referenceBase : Char)
    (dout : DecodeOut) (cands : List ℤ) : List ℤ :=
  let cands :=
    if cfg.knownVariants = none ∧ cfg.hasPileupCandidates = false ∧
        referenceBase ∈ ACGTChars ∧ dout.pass_af = true ∧
        ((dout.depth.getD 0 : ℚ) ≥ cfg.minCoverage) then cands ++ [pos]
    else cands
  match cfg.knownVariants with
  | some ks =>
      if cfg.hasPileupCandidates = false ∧ pos ∈ ks then cands ++ [pos]
      else cands
  | none => cands

/-- The retention-window trim loop (lines 738-742): iterate the window keys
in sorted order deleting while `cand - pre_pos > extend_bp_distance`, then
`break`; equivalently, delete the sorted prefix of keys with that property. -/
def trimWindow (d c : ℤ) (w : List (ℤ × Position)) : List (ℤ × Position) :=
  let deleted := (List.insertionSort (fun a b : ℤ => a ≤ b)
    (w.map Prod.fst)).takeWhile (fun k => decide (c - k > d))
  w.filter (fun kv => decide (kv.1 ∉ deleted))

/-- The emission check at the end of each row iteration (lines 735-743):
yield the cursor candidate when the current position has moved more than
`extend_bp_distance` past it, then trim the window and advance. -/
def emitCheck (d : ℤ) (pos : ℤ) (cands : List ℤ) (idx : ℕ)
    (w : List (ℤ × Position)) : ℕ × List (ℤ × Position) × List ℤ :=
  if h : idx < cands.length then
    if pos - cands.get ⟨idx, h⟩ > d then
      (idx + 1, trimWindow d (cands.get ⟨idx, h⟩) w, [cands.get ⟨idx, h⟩])
    else (idx, w, [])
  else (idx, w, [])

/-- The Illumina read-name strand-suffix loop (lines 700-705);
`read_name_list[b_idx]` raises `IndexError` when the base list is longer
than the read-name list. -/
def renameIlmnLoop : List (Char × String) → ℕ → List String →
    Except PyErr (List String)
  | [], _, names => .ok names
  | (b, _) :: rest, bidx, names =>
      if h : bidx < names.length then
        let suffix := if b = '#' ∨ ('a' ≤ b ∧ b ≤ 'z') then "_1" else "_0"
        renameIlmnLoop rest (bidx + 1)
          (names.set bidx (names.get ⟨bidx, h⟩ ++ suffix))
      else .error .indexError

/-- The body of the row loop of `samtools_pileup_generator_from`
(lines 674-743) for one row: returns the updated state and the positions
yielded at this row, or the uncaught exception that aborts the stream. -/
def processRow (P : Profile) (cfg : GenCfg) (st : GenState) (row : RowIn) :
    Except PyErr (GenState × List ℤ) :=
  let pos := row.pos
  let passExtendBed := match cfg.extendBed with
    | none => true
    | some f => f (pos - 1) (pos + 1)
  let passCtgRange := match cfg.ctgRange with
    | none => true
    | some (s, e) => decide (pos ≥ s ∧ pos ≤ e)
  if cfg.hasPileupCandidates = false ∧ passExtendBed = false ∧
      passCtgRange = true then .ok (st, [])
  else
    let referenceBase := cfg.refAt pos
    if referenceBase ∉ ACGTChars then .ok (st, [])
    else
      match decode_pileup_bases P pos row.pileup_bases referenceBase
        cfg.minSnvAf cfg.minIndelAf cfg.hasPileupCandidates
        cfg.candidatesTypeDict cfg.isTumor with
      | none => .error .indexError
      | some dout =>
        match (if cfg.isIlmn then renameIlmnLoop dout.base_list 0
            row.read_name_list
          else .ok row.read_name_list) with
        | .error e => .error e
        | .ok readNameList =>
          if cfg.phasingInBam ∧
              readNameList.length ≠ row.phasing_info.length then .ok (st, [])
          else
            let hapDict :=
              if cfg.phasingInBam then
                (row.phasing_info.zip readNameList).foldl
                  (fun hd hn =>
                    if (hn.1 = "1" ∨ hn.1 = "2") ∧ (dictFind hn.2 hd).isNone
                    then dictInsert hn.2 (if hn.1 = "1" then 1 else 2) hd
                    else hd) st.hap_dict
              else st.hap_dict
            if readNameList.length ≠ dout.base_list.length then
              .ok ({ st with hap_dict := hapDict }, [])
            else
              let cands := candidateAppend cfg pos referenceBase dout
                st.candidate_pos_list
              let position : Position :=
                { pos := pos, ref_base := referenceBase,
                  read_name_list := readNameList,
                  base_list := dout.base_list,
                  raw_base_quality := row.raw_base_quality.toList,
                  raw_mapping_quality := row.raw_mapping_quality.toList,
                  af := dout.af, depth := dout.depth }
              let w := dictInsert pos position st.pileup_dict
              let r := emitCheck (extendBpDistance P) pos cands
                st.current_pos_index w
              .ok ({ candidate_pos_list := cands, current_pos_index := r.1,
                     pileup_dict := r.2.1, hap_dict := hapDict }, r.2.2)

/-- The end-of-stream flush loop (lines 744-751): yield every remaining
candidate in order, trimming the window after each. -/
def flushLoopAux (d : ℤ) (cands : List ℤ) :
    ℕ → ℕ → List (ℤ × Position) → List ℤ → List (ℤ × Position) × List ℤ
  | 0, _, w, out => (w, out)
  | fuel + 1, idx, w, out =>
    if h : idx < cands.length then
      flushLoopAux d cands fuel (idx + 1)
        (trimWindow d (cands.get ⟨idx, h⟩) w) (out ++ [cands.get ⟨idx, h⟩])
    else (w, out)

def flushLoop (d : ℤ) (cands : List ℤ) (idx : ℕ) (w : List (ℤ × Position))
    (out : List ℤ) : List (ℤ × Position) × List ℤ :=
  flushLoopAux d cands (cands.length - idx) idx w out

/-- `samtools_pileup_generator_from` over a whole list of rows: fold
`processRow`, then flush. -/
def samtools_pileup_generator_from (P : Profile) (cfg : GenCfg) :
    List RowIn → GenState → List ℤ → Except PyErr (GenState × List ℤ)
  | [], st, out =>
      let r := flushLoop (extendBpDistance P) st.candidate_pos_list
        st.current_pos_index st.pileup_dict out
      .ok ({ candidate_pos_list := st.candidate_pos_list,
             current_pos_index := st.candidate_pos_list.length,
             pileup_dict := r.1, hap_dict := st.hap_dict }, r.2)
  | row :: rest, st, out =>
      match processRow P cfg st row with
      | .error e => .error e
      | .ok (st2, ys) =>
          samtools_pileup_generator_from P cfg rest st2 (out ++ ys)

lemma takeWhile_sorted_eq_filter (p : ℤ → Bool)
    (hmono : ∀ x y : ℤ, x ≤ y → p y = true → p x = true) :
    ∀ l : List ℤ, l.Sorted (· ≤ ·) → l.takeWhile p = l.filter p := by
  intro l
  induction l with
  | nil => intro _; simp
  | cons a t ih =>
      intro hs
      obtain ⟨hall, ht⟩ := List.sorted_cons.mp hs
      cases hpa : p a with
      | true => simp [List.takeWhile_cons, List.filter_cons, hpa, ih ht]
      | false =>
          have hall0 : ∀ x ∈ t, p x = false := by
            intro x hx
            cases hpx : p x with
            | false => rfl
            | true => rw [hmono a x (hall x hx) hpx] at hpa; cases hpa
          simp only [List.takeWhile_cons, List.filter_cons, hpa, if_false,
            ite_false, Bool.false_eq_true]
          symm
          rw [List.filter_eq_nil]
          intro x hx
          simp [hall0 x hx]

lemma mem_trimWindow (d c : ℤ) (w : List (ℤ × Position)) (kv : ℤ × Position) :
    kv ∈ trimWindow d c w ↔ kv ∈ w ∧ ¬(c - kv.1 > d) := by
  have hmono : ∀ x y : ℤ, x ≤ y → decide (c - y > d) = true →
      decide (c - x > d) = true := by
    intro x y hxy hy
    simp only [decide_eq_true_eq] at hy ⊢
    omega
  have hsorted : (List.insertionSort (fun a b : ℤ => a ≤ b)
      (w.map Prod.fst)).Sorted (· ≤ ·) :=
    List.sorted_insertionSort _ _
  have hperm := List.perm_insertionSort (fun a b : ℤ => a ≤ b)
    (w.map Prod.fst)
  have hdel : ∀ k : ℤ,
      (k ∈ (List.insertionSort (fun a b : ℤ => a ≤ b)
          (w.map Prod.fst)).takeWhile (fun k => decide (c - k > d))) ↔
        (k ∈ w.map Prod.fst ∧ c - k > d) := by
    intro k
    rw [takeWhile_sorted_eq_filter _ hmono _ hsorted, List.mem_filter]
    constructor
    · rintro ⟨h1, h2⟩
      exact ⟨hperm.subset h1, by simpa using h2⟩
    · rintro ⟨h1, h2⟩
      exact ⟨hperm.mem_iff.mpr h1, by simpa using h2⟩
  unfold trimWindow
  rw [List.mem_filter]
  constructor
  · rintro ⟨h1, h2⟩
    refine ⟨h1, fun hgt => ?_⟩
    simp only [decide_eq_true_eq] at h2
    exact h2 ((hdel kv.1).mpr ⟨List.mem_map_of_mem Prod.fst h1, hgt⟩)
  · rintro ⟨h1, h2⟩
    refine ⟨h1, ?_⟩
    simp only [decide_eq_true_eq]
    intro hmem
    exact h2 ((hdel kv.1).mp hmem).2

lemma flushLoopAux_out (d : ℤ) (cands : List ℤ) :
    ∀ (n idx : ℕ), cands.length - idx ≤ n →
      ∀ (w : List (ℤ × Position)) (out : List ℤ),
        (flushLoopAux d cands n idx w out).2 = out ++ cands.drop idx := by
  intro n
  induction n with
  | zero =>
      intro idx hle w out
      simp [flushLoopAux, List.drop_eq_nil_of_le
        (by omega : cands.length ≤ idx)]
  | succ n ih =>
      intro idx hle w out
      rw [flushLoopAux]
      by_cases h : idx < cands.length
      · rw [dif_pos h]
        rw [ih (idx + 1) (by omega)]
        rw [List.drop_eq_get_cons h]
        simp
      · rw [dif_neg h]
        simp [List.drop_eq_nil_of_le (by omega : cands.length ≤ idx)]

lemma flushLoop_out (d : ℤ) (cands : List ℤ) (idx : ℕ)
    (w : List (ℤ × Position)) (out : List ℤ) :
    (flushLoop d cands idx w out).2 = out ++ cands.drop idx :=
  flushLoopAux_out d cands (cands.length - idx) idx le_rfl w out

/-- C4 (amended): with `extend_bp_distance = no_of_positions + extend_bp =
2F+1+extend_bp`, the pending candidate is yielded exactly when the current
row position exceeds it by more than that distance; the trim removes exactly
the window entries with `cand - key > extend_bp_distance`; and at stream end
the flush emits all remaining candidates in order. -/
theorem samtools_pileup_emit_spec (P : Profile) (pos : ℤ) (cands : List ℤ)
    (idx : ℕ) (w : List (ℤ × Position)) (h : idx < cands.length) :
    ((emitCheck (extendBpDistance P) pos cands idx w).2.2 =
      if pos - cands.get ⟨idx, h⟩ > extendBpDistance P
      then [cands.get ⟨idx, h⟩] else [])
    ∧ (∀ kv, kv ∈ trimWindow (extendBpDistance P) (cands.get ⟨idx, h⟩) w ↔
        kv ∈ w ∧ ¬(cands.get ⟨idx, h⟩ - kv.1 > extendBpDistance P))
    ∧ ∀ (w0 : List (ℤ × Position)) (out0 : List ℤ),
        (flushLoop (extendBpDistance P) cands idx w0 out0).2 =
          out0 ++ cands.drop idx := by
  refine ⟨?_, ?_, ?_⟩
  · unfold emitCheck
    rw [dif_pos h]
    split_ifs with hgt <;> rfl
  · intro kv
    exact mem_trimWindow (extendBpDistance P) (cands.get ⟨idx, h⟩) w kv
  · intro w0 out0
    exact flushLoop_out (extendBpDistance P) cands idx w0 out0

/-- C4 counterexample: with `F = 2` and `extend_bp = 1` the source threshold
is `extend_bp_distance = 2F+1+extend_bp = 6`, not `F + extend_bp = 3`: a row
at position 14 exceeds the pending candidate 10 by more than `F + extend_bp`
yet nothing is yielded. -/
theorem samtools_pileup_emit_cex :
    extendBpDistance ⟨2, 1, 0, 0⟩ = 6
    ∧ ((14 : ℤ) - 10 > (2 : ℤ) + 1)
    ∧ (emitCheck (extendBpDistance ⟨2, 1, 0, 0⟩) 14 [10] 0 []).2.2 = [] := by
  refine ⟨by decide, by decide, ?_⟩
  rfl

/-- Witness for C4: at a row position far enough past the candidate, the
candidate is yielded. -/
theorem samtools_pileup_emit_witness :
    (emitCheck (extendBpDistance ⟨2, 1, 0, 0⟩) 20 [10] 0 []).2.2 =
      [(10 : ℤ)] := by
  have h := samtools_pileup_emit_spec ⟨2, 1, 0, 0⟩ 20 [10] 0 [] (by decide)
  rw [h.1]
  rfl

lemma acgt_ne_ID {b : Char} (hb : b ∈ ACGTChars) : b ≠ 'I' ∧ b ≠ 'D' := by
  simp [ACGTChars] at hb
  rcases hb with h | h | h | h <;> subst h <;> exact ⟨by decide, by decide⟩

lemma pass_af_characterization (bl : List (Char × String)) (rB : Char)
    (ts ti : ℚ) (href : rB ∈ ACGTChars) (hts : 0 < ts) (hti : 0 < ti)
    (hd : 0 < depthOf bl) :
    (((List.insertionSort (fun a b : Char × ℕ => b.2 ≤ a.2)
        (pileupFold (pyCounter bl)).1).any
          (passItem rB ts ti ((depthOf bl : ℕ) : ℚ))) = true
      ↔ ((∃ b ∈ ACGTChars, b ≠ rB ∧
            ts ≤ (countBaseUpper bl b : ℚ) / ((depthOf bl : ℕ) : ℚ))
        ∨ ti ≤ (countIndelStart bl '+' : ℚ) / ((depthOf bl : ℕ) : ℚ)
        ∨ ti ≤ (countIndelStart bl '-' : ℚ) / ((depthOf bl : ℕ) : ℚ))) := by
  rw [List.any_eq_true]
  obtain ⟨hkeys, hnd⟩ := pileupFold_keys (pyCounter bl)
  constructor
  · rintro ⟨kc, hmem, hpass⟩
    have hmem' : kc ∈ (pileupFold (pyCounter bl)).1 :=
      (List.perm_insertionSort _ _).subset hmem
    have hkey : pileupKey kc.1 :=
      hkeys kc.1 (List.mem_map_of_mem Prod.fst hmem')
    have hfind : dictFind kc.1 (pileupFold (pyCounter bl)).1 = some kc.2 :=
      dictFind_eq_some_of_mem hnd (by rcases kc with ⟨k, c⟩; exact hmem')
    have hval : dFindD kc.1 (pileupFold (pyCounter bl)).1 = kc.2 := by
      unfold dFindD
      rw [hfind]
      rfl
    rcases hkey with hACGT | hI | hD
    · have hne : kc.1 ≠ rB := by
        by_contra he
        simp [passItem, he] at hpass
      obtain ⟨hnI, hnD⟩ := acgt_ne_ID hACGT
      have hq : ts ≤ (kc.2 : ℚ) / ((depthOf bl : ℕ) : ℚ) := by
        simpa [passItem, hne, hnI, hnD] using hpass
      refine Or.inl ⟨kc.1, hACGT, hne, ?_⟩
      rw [← dFindD_counter_base bl kc.1 hACGT, hval]
      exact hq
    · have hne : kc.1 ≠ rB := by
        rw [hI]
        intro he
        rw [← he] at href
        simp [ACGTChars] at href
      have hq : ti ≤ (kc.2 : ℚ) / ((depthOf bl : ℕ) : ℚ) := by
        have h2 : ¬('I' : Char) = rB ∧
            ti ≤ (kc.2 : ℚ) / ((depthOf bl : ℕ) : ℚ) := by
          simpa [passItem, hI] using hpass
        exact h2.2
      refine Or.inr (Or.inl ?_)
      rw [← dFindD_counter_ins bl, ← hI, hval]
      exact hq
    · have hne : kc.1 ≠ rB := by
        rw [hD]
        intro he
        rw [← he] at href
        simp [ACGTChars] at href
      have hq : ti ≤ (kc.2 : ℚ) / ((depthOf bl : ℕ) : ℚ) := by
        have h2 : ¬('D' : Char) = rB ∧
            ti ≤ (kc.2 : ℚ) / ((depthOf bl : ℕ) : ℚ) := by
          simpa [passItem, hD] using hpass
        exact h2.2
      refine Or.inr (Or.inr ?_)
      rw [← dFindD_counter_del bl, ← hD, hval]
      exact hq
  · rintro (⟨b, hbA, hbne, hge⟩ | hge | hge)
    · have hcpos : 0 < countBaseUpper bl b := by
        by_contra h0
        push_neg at h0
        have hc0 : countBaseUpper bl b = 0 := by omega
        rw [hc0] at hge
        simp at hge
        linarith
      have hdv : dFindD b (pileupFold (pyCounter bl)).1 = countBaseUpper bl b :=
        dFindD_counter_base bl b hbA
      have hfind := dictFind_of_dFindD_pos (l := (pileupFold (pyCounter bl)).1)
        (x := b) (by rw [hdv]; exact hcpos)
      rw [hdv] at hfind
      have hmem := mem_of_dictFind_eq_some hfind
      refine ⟨(b, countBaseUpper bl b),
        (List.perm_insertionSort _ _).mem_iff.mpr hmem, ?_⟩
      obtain ⟨hnI, hnD⟩ := acgt_ne_ID hbA
      simp [passItem, hbne, hnI, hnD]
      exact hge
    · have hcpos : 0 < countIndelStart bl '+' := by
        by_contra h0
        push_neg at h0
        have hc0 : countIndelStart bl '+' = 0 := by omega
        rw [hc0] at hge
        simp at hge
        linarith
      have hdv : dFindD 'I' (pileupFold (pyCounter bl)).1 =
          countIndelStart bl '+' := dFindD_counter_ins bl
      have hfind := dictFind_of_dFindD_pos (l := (pileupFold (pyCounter bl)).1)
        (x := 'I') (by rw [hdv]; exact hcpos)
      rw [hdv] at hfind
      have hmem := mem_of_dictFind_eq_some hfind
      have hne : ('I' : Char) ≠ rB := by
        intro he
        rw [← he] at href
        simp [ACGTChars] at href
      refine ⟨('I', countIndelStart bl '+'),
        (List.perm_insertionSort _ _).mem_iff.mpr hmem, ?_⟩
      simp [passItem, hne]
      exact hge
    · have hcpos : 0 < countIndelStart bl '-' := by
        by_contra h0
        push_neg at h0
        have hc0 : countIndelStart bl '-' = 0 := by omega
        rw [hc0] at hge
        simp at hge
        linarith
      have hdv : dFindD 'D' (pileupFold (pyCounter bl)).1 =
          countIndelStart bl '-' := dFindD_counter_del bl
      have hfind := dictFind_of_dFindD_pos (l := (pileupFold (pyCounter bl)).1)
        (x := 'D') (by rw [hdv]; exact hcpos)
      rw [hdv] at hfind
      have hmem := mem_of_dictFind_eq_some hfind
      have hne : ('D' : Char) ≠ rB := by
        intro he
        rw [← he] at href
        simp [ACGTChars] at href
      refine ⟨('D', countIndelStart bl '-'),
        (List.perm_insertionSort _ _).mem_iff.mpr hmem, ?_⟩
      simp [passItem, hne]
      exact hge

/-- C5: with positive AF thresholds and no external candidate set, the
decoder's `pass_af` holds iff some non-reference base among A,C,G,T reaches
the SNV threshold or the insertion/deletion count over depth reaches the
indel threshold, where depth counts A,C,G,T reads plus `#`/`*` reads; and in
that mode the generator appends a position as a candidate only when
`pass_af` holds and the depth is at least `min_coverage`. -/
theorem af_gate_spec (P : Profile) (cfg : GenCfg) (pos : ℤ)
    (pileupBases : String) (referenceBase : Char) (out : DecodeOut)
    (hs : 0 < cfg.minSnvAf) (hi : 0 < cfg.minIndelAf)
    (href : referenceBase ∈ ACGTChars)
    (hdec : decode_pileup_bases P pos pileupBases referenceBase cfg.minSnvAf
      cfg.minIndelAf false cfg.candidatesTypeDict cfg.isTumor = some out)
    (hd : 0 < depthOf out.base_list) :
    (out.pass_af = true ↔
      ((∃ b ∈ ACGTChars, b ≠ referenceBase ∧
          cfg.minSnvAf ≤ (countBaseUpper out.base_list b : ℚ) /
            ((depthOf out.base_list : ℕ) : ℚ))
        ∨ cfg.minIndelAf ≤ (countIndelStart out.base_list '+' : ℚ) /
            ((depthOf out.base_list : ℕ) : ℚ)
        ∨ cfg.minIndelAf ≤ (countIndelStart out.base_list '-' : ℚ) /
            ((depthOf out.base_list : ℕ) : ℚ)))
    ∧ out.depth = some (depthOf out.base_list)
    ∧ (∀ (st : GenState) (dout : DecodeOut) (rB : Char),
        cfg.knownVariants = none →
        candidateAppend cfg pos rB dout st.candidate_pos_list ≠
          st.candidate_pos_list →
        dout.pass_af = true ∧ (dout.depth.getD 0 : ℚ) ≥ cfg.minCoverage) := by
  have happend : ∀ (st : GenState) (dout : DecodeOut) (rB : Char),
      cfg.knownVariants = none →
      candidateAppend cfg pos rB dout st.candidate_pos_list ≠
        st.candidate_pos_list →
      dout.pass_af = true ∧ (dout.depth.getD 0 : ℚ) ≥ cfg.minCoverage := by
    intro st dout rB hkv hne
    by_cases hcond : cfg.hasPileupCandidates = false ∧ rB ∈ ACGTChars ∧
        dout.pass_af = true ∧ (dout.depth.getD 0 : ℚ) ≥ cfg.minCoverage
    · exact ⟨hcond.2.2.1, hcond.2.2.2⟩
    · have heq : candidateAppend cfg pos rB dout st.candidate_pos_list =
          st.candidate_pos_list := by
        unfold candidateAppend
        rw [hkv]
        have hng : ¬((none : Option (List ℤ)) = none ∧
            cfg.hasPileupCandidates = false ∧ rB ∈ ACGTChars ∧
            dout.pass_af = true ∧
            (dout.depth.getD 0 : ℚ) ≥ cfg.minCoverage) := fun h => hcond h.2
        rw [if_neg hng]
      exact absurd heq hne
  cases hp : parsePileupBases pileupBases with
  | none =>
      simp only [decode_pileup_bases, hp] at hdec
      exact Option.noConfusion hdec
  | some bl =>
      simp only [decode_pileup_bases, hp, Bool.false_eq_true, false_and,
        if_false, ite_false, Option.some.injEq] at hdec
      subst hdec
      dsimp only at hd ⊢
      have hdepth : (pileupFold (pyCounter bl)).2 = depthOf bl :=
        pileupFold_counter_depth bl
      refine ⟨?_, by rw [hdepth], happend⟩
      rw [if_pos hs, if_pos hi, hdepth, if_pos hd]
      rw [afLoop_any]
      simp only [Bool.false_or]
      exact pass_af_characterization bl referenceBase cfg.minSnvAf
        cfg.minIndelAf href hs hi hd

lemma eq_some_getD {α : Type} (o : Option α) (d : α) (h : o ≠ none) :
    o = some (o.getD d) := by
  cases o with
  | none => exact absurd rfl h
  | some v => rfl

/-- Witness for C5: a concrete pileup row `AATT` over reference `A` with
SNV threshold 3/10 passes the AF gate through the T count. -/
theorem af_gate_witness :
    ∃ out : DecodeOut,
      decode_pileup_bases ⟨2, 1, 1/10, 1/10⟩ 5 "AATT" 'A' (3/10) (1/2) false
        [] true = some out ∧ out.pass_af = true := by
  have hnn : decode_pileup_bases ⟨2, 1, 1/10, 1/10⟩ 5 "AATT" 'A' (3/10) (1/2)
      false [] true ≠ none := by decide
  have hdec := eq_some_getD _ (⟨[], none, false, 0⟩ : DecodeOut) hnn
  have h := af_gate_spec ⟨2, 1, 1/10, 1/10⟩
    { isTumor := true, hasPileupCandidates := false, candidatesTypeDict := [],
      extendBed := none, ctgRange := none, refAt := fun _ => 'A',
      isIlmn := false, phasingInBam := false, knownVariants := none,
      minSnvAf := 3/10, minIndelAf := 1/2, minCoverage := 4 } 5 "AATT" 'A'
    ((decode_pileup_bases ⟨2, 1, 1/10, 1/10⟩ 5 "AATT" 'A' (3/10) (1/2) false
      [] true).getD ⟨[], none, false, 0⟩)
    (by norm_num) (by norm_num) (by decide) hdec (by decide)
  refine ⟨_, hdec, ?_⟩
  rw [h.1]
  refine Or.inl ⟨'T', by decide, by decide, ?_⟩
  rw [show countBaseUpper
      ((decode_pileup_bases ⟨2, 1, 1/10, 1/10⟩ 5 "AATT" 'A' (3/10) (1/2) false
        [] true).getD ⟨[], none, false, 0⟩).base_list 'T' = 2 from by decide,
    show depthOf
      ((decode_pileup_bases ⟨2, 1, 1/10, 1/10⟩ 5 "AATT" 'A' (3/10) (1/2) false
        [] true).getD ⟨[], none, false, 0⟩).base_list = 4 from by decide]
  norm_num

/-- C9 (amended): if the parsed base list's length disagrees with the
comma-split read-name list, the row is skipped silently (the source keeps no
counter) and processing continues with the next row; a bases string whose
`+`/`-` numeric run is unterminated makes the decoder raise an uncaught
`IndexError`, aborting the chunk rather than being recovered locally. -/
theorem malformed_row_spec (P : Profile) (cfg : GenCfg) (st : GenState)
    (row : RowIn) (hbed : cfg.extendBed = none) (hil : cfg.isIlmn = false)
    (hph : cfg.phasingInBam = false)
    (href : cfg.refAt row.pos ∈ ACGTChars) :
    (∀ dout : DecodeOut,
      decode_pileup_bases P row.pos row.pileup_bases (cfg.refAt row.pos)
        cfg.minSnvAf cfg.minIndelAf cfg.hasPileupCandidates
        cfg.candidatesTypeDict cfg.isTumor = some dout →
      row.read_name_list.length ≠ dout.base_list.length →
      processRow P cfg st row = .ok (st, []))
    ∧ (decode_pileup_bases P row.pos row.pileup_bases (cfg.refAt row.pos)
        cfg.minSnvAf cfg.minIndelAf cfg.hasPileupCandidates
        cfg.candidatesTypeDict cfg.isTumor = none →
      processRow P cfg st row = .error .indexError) := by
  constructor
  · intro dout hdec hlen
    rcases st with ⟨sc, si, sw, sh⟩
    simp [processRow, hbed, hil, hph, hdec, href, hlen]
  · intro hdec
    rcases st with ⟨sc, si, sw, sh⟩
    simp [processRow, hbed, hdec, href]

/-- C9 counterexample: the bases string `A+2` has an unterminated numeric
run; decoding raises an uncaught `IndexError` and the whole stream aborts,
instead of failing as a locally recovered malformed-pileup row. -/
theorem malformed_row_cex :
    processRow ⟨2, 1, 1, 1⟩
      { isTumor := true, hasPileupCandidates := false,
        candidatesTypeDict := [], extendBed := none, ctgRange := none,
        refAt := fun _ => 'A', isIlmn := false, phasingInBam := false,
        knownVariants := none, minSnvAf := 1, minIndelAf := 1,
        minCoverage := 4 }
      ⟨[], 0, [], []⟩ ⟨7, "A+2", "I", "I", ["r1"], []⟩ =
      .error .indexError := by
  decide

/-- Witness for C9: a row whose base list has two entries but whose
read-name list has one is skipped with the state unchanged. -/
theorem malformed_row_witness :
    processRow ⟨2, 1, 1, 1⟩
      { isTumor := true, hasPileupCandidates := false,
        candidatesTypeDict := [], extendBed := none, ctgRange := none,
        refAt := fun _ => 'A', isIlmn := false, phasingInBam := false,
        knownVariants := none, minSnvAf := 1, minIndelAf := 1,
        minCoverage := 4 }
      ⟨[], 0, [], []⟩ ⟨7, "AA", "II", "II", ["r1"], []⟩ =
      .ok (⟨[], 0, [], []⟩, []) := by
  have h := malformed_row_spec ⟨2, 1, 1, 1⟩
    { isTumor := true, hasPileupCandidates := false,
      candidatesTypeDict := [], extendBed := none, ctgRange := none,
      refAt := fun _ => 'A', isIlmn := false, phasingInBam := false,
      knownVariants := none, minSnvAf := 1, minIndelAf := 1,
      minCoverage := 4 }
    ⟨[], 0, [], []⟩ ⟨7, "AA", "II", "II", ["r1"], []⟩ rfl rfl rfl (by decide)
  exact h.1
    ((decode_pileup_bases ⟨2, 1, 1, 1⟩ 7 "AA" 'A' 1 1 false [] true).getD
      ⟨[], none, false, 0⟩)
    (eq_some_getD _ _ (by decide)) (by decide)

/-! ## Read ordering (`sorted_by_hap_read_name`, lines 114-142) -/

/-- `range(a, b)` over integers. -/
def intRange (a b : ℤ) : List ℤ :=
  (List.range (b - a).toNat).map (fun i => a + i)

/-- Gather the read names of every window position present in
`pileup_dict`, deduplicated keeping first appearance
(`OrderedDict.fromkeys`, lines 124-129). -/
def all_nearby_read_name (P : Profile) (center_pos : ℤ)
    (pileup_dict : List (ℤ × Position)) : List String :=
  uniqKeepFirst ((intRange (center_pos - P.flankingBaseNum)
    (center_pos + P.flankingBaseNum + 1)).bind
      (fun p => match dictFind p pileup_dict with
        | some posInfo => posInfo.read_name_list
        | none => []))

/-- The deterministic subsampling step (lines 131-135).  `sample n k` models
`random.seed(0); random.sample(range(n), k)` — the Python standard library
PRNG, which is not part of this repository; after the fixed reseeding it is
a pure function of `(n, k)` that returns `k` distinct indices below `n`,
assumed as hypotheses where needed. -/
def subsampledNames (sample : ℕ → ℕ → List ℕ) (max_depth : ℕ)
    (use_tensor_sample_mode : Bool) (allNearby : List String) : List String :=
  if allNearby.length > max_depth ∧ use_tensor_sample_mode = false then
    (List.insertionSort (fun a b : ℕ => a ≤ b)
      (sample allNearby.length max_depth)).map (fun i => allNearby.getD i "")
  else allNearby

/-- `sorted_by_hap_read_name`: gather, subsample, annotate with
`max(haplotag_dict[name], hap_dict[name])` and first-appearance order, then
sort by `(hap, order)` (lines 114-142). -/
def sorted_by_hap_read_name (P : Profile) (sample : ℕ → ℕ → List ℕ)
    (center_pos : ℤ) (haplotag_dict : String → ℕ)
    (pileup_dict : List (ℤ × Position)) (hap_dict : String → ℕ)
    (max_depth : ℕ) (use_tensor_sample_mode : Bool) :
    List (ℕ × ℕ × String) :=
  let names := subsampledNames sample max_depth use_tensor_sample_mode
    (all_nearby_read_name P center_pos pileup_dict)
  List.insertionSort
    (fun a b : ℕ × ℕ × String => a.1 < b.1 ∨ (a.1 = b.1 ∧ a.2.1 ≤ b.2.1))
    (names.enum.map (fun oe =>
      (max (haplotag_dict oe.2) (hap_dict oe.2), oe.1, oe.2)))

lemma sorted_map_pred {idxs : List ℕ} (hs : idxs.Sorted (· < ·))
    (hpos : ∀ j ∈ idxs, 0 < j) :
    (idxs.map (fun j => j - 1)).Sorted (· < ·) := by
  rw [List.Sorted, List.pairwise_map]
  refine List.Pairwise.imp_of_mem ?_ hs
  intro a b ha hb hab
  have := hpos a ha
  omega

lemma map_getD_sublist {α : Type} (d : α) :
    ∀ (l : List α) (idxs : List ℕ), idxs.Sorted (· < ·) →
      (∀ i ∈ idxs, i < l.length) →
      (idxs.map (fun i => l.getD i d)).Sublist l := by
  intro l
  induction l with
  | nil =>
      intro idxs _ hb
      cases idxs with
      | nil => simp
      | cons i t => exact absurd (hb i (by simp)) (by simp)
  | cons a l ih =>
      intro idxs hs hb
      cases idxs with
      | nil => simp
      | cons i t =>
          have hts : t.Sorted (· < ·) := (List.sorted_cons.mp hs).2
          have hall : ∀ j ∈ t, i < j := (List.sorted_cons.mp hs).1
          cases i with
          | zero =>
              have hpos : ∀ j ∈ t, 0 < j := fun j hj => hall j hj
              have hmap : t.map (fun k => (a :: l).getD k d) =
                  (t.map (fun j => j - 1)).map (fun k => l.getD k d) := by
                rw [List.map_map]
                apply List.map_congr_left
                intro j hj
                have hj0 := hpos j hj
                cases j with
                | zero => omega
                | succ j => simp
              simp only [List.map_cons, List.getD_cons_zero]
              refine List.Sublist.cons₂ a ?_
              rw [hmap]
              refine ih _ (sorted_map_pred hts hpos) ?_
              intro k hk
              rcases List.mem_map.mp hk with ⟨j, hj, rfl⟩
              have := hb j (List.mem_cons_of_mem _ hj)
              have := hpos j hj
              simp only [List.length_cons] at *
              omega
          | succ i =>
              have hpos : ∀ j ∈ (i + 1) :: t, 0 < j := by
                intro j hj
                rcases List.mem_cons.mp hj with h | h
                · omega
                · have := hall j h
                  omega
              have hmap : ((i + 1) :: t).map (fun k => (a :: l).getD k d) =
                  (((i + 1) :: t).map (fun j => j - 1)).map
                    (fun k => l.getD k d) := by
                rw [List.map_map]
                apply List.map_congr_left
                intro j hj
                have hj0 := hpos j hj
                cases j with
                | zero => omega
                | succ j => simp
              rw [hmap]
              refine List.Sublist.cons a ?_
              refine ih _ (sorted_map_pred hs hpos) ?_
              intro k hk
              rcases List.mem_map.mp hk with ⟨j, hj, rfl⟩
              have := hb j hj
              have := hpos j hj
              simp only [List.length_cons] at *
              omega

/-- C6: when the gathered distinct read names exceed `max_depth` and
tensor-sample mode is off, the subsample picks exactly `max_depth` indices
(without replacement, below the name count — the guarantees of the reseeded
`random.sample`, taken as hypotheses) and sorting the picked indices keeps
the result an order-preserving sublist of the gathered names; the whole
function is a pure function of its inputs, so two runs on identical inputs
return the identical list. -/
theorem subsample_spec (P : Profile) (sample : ℕ → ℕ → List ℕ)
    (center_pos : ℤ) (haplotag_dict hap_dict : String → ℕ)
    (pileup_dict : List (ℤ × Position)) (max_depth : ℕ)
    (hgt : (all_nearby_read_name P center_pos pileup_dict).length > max_depth)
    (hlen : (sample (all_nearby_read_name P center_pos pileup_dict).length
      max_depth).length = max_depth)
    (hnd : (sample (all_nearby_read_name P center_pos pileup_dict).length
      max_depth).Nodup)
    (hbound : ∀ i ∈ sample
      (all_nearby_read_name P center_pos pileup_dict).length max_depth,
      i < (all_nearby_read_name P center_pos pileup_dict).length) :
    (subsampledNames sample max_depth false
        (all_nearby_read_name P center_pos pileup_dict)).length = max_depth
    ∧ (subsampledNames sample max_depth false
        (all_nearby_read_name P center_pos pileup_dict)).Sublist
        (all_nearby_read_name P center_pos pileup_dict)
    ∧ sorted_by_hap_read_name P sample center_pos haplotag_dict pileup_dict
        hap_dict max_depth false =
      sorted_by_hap_read_name P sample center_pos haplotag_dict pileup_dict
        hap_dict max_depth false := by
  have hperm := List.perm_insertionSort (fun a b : ℕ => a ≤ b)
    (sample (all_nearby_read_name P center_pos pileup_dict).length max_depth)
  have hcond : (all_nearby_read_name P center_pos pileup_dict).length >
      max_depth ∧ false = false := ⟨hgt, rfl⟩
  refine ⟨?_, ?_, rfl⟩
  · unfold subsampledNames
    rw [if_pos hcond]
    rw [List.length_map, hperm.length_eq, hlen]
  · unfold subsampledNames
    rw [if_pos hcond]
    have hsorted : (List.insertionSort (fun a b : ℕ => a ≤ b)
        (sample (all_nearby_read_name P center_pos pileup_dict).length
          max_depth)).Sorted (· ≤ ·) := List.sorted_insertionSort _ _
    have hnd2 : (List.insertionSort (fun a b : ℕ => a ≤ b)
        (sample (all_nearby_read_name P center_pos pileup_dict).length
          max_depth)).Nodup := hperm.nodup_iff.mpr hnd
    refine map_getD_sublist "" _ _ (hsorted.lt_of_le hnd2) ?_
    intro i hi
    exact hbound i (hperm.subset hi)

/-- Witness for C6 at a window with three reads and `max_depth = 2`,
with `sample n k = range k` standing for the reseeded sampler. -/
theorem subsample_witness :
    (subsampledNames (fun _ k => List.range k) 2 false
        (all_nearby_read_name ⟨1, 1, 1, 1⟩ 10
          [((10 : ℤ), ⟨10, 'A', ["r1", "r2", "r3"],
            [('A', ""), ('A', ""), ('A', "")], ['I', 'I', 'I'],
            ['I', 'I', 'I'], 0, some 3⟩)])).length = 2
    ∧ (subsampledNames (fun _ k => List.range k) 2 false
        (all_nearby_read_name ⟨1, 1, 1, 1⟩ 10
          [((10 : ℤ), ⟨10, 'A', ["r1", "r2", "r3"],
            [('A', ""), ('A', ""), ('A', "")], ['I', 'I', 'I'],
            ['I', 'I', 'I'], 0, some 3⟩)])).Sublist
        (all_nearby_read_name ⟨1, 1, 1, 1⟩ 10
          [((10 : ℤ), ⟨10, 'A', ["r1", "r2", "r3"],
            [('A', ""), ('A', ""), ('A', "")], ['I', 'I', 'I'],
            ['I', 'I', 'I'], 0, some 3⟩)]) := by
  have h := subsample_spec ⟨1, 1, 1, 1⟩ (fun _ k => List.range k) 10
    (fun _ => 0) (fun _ => 0)
    [((10 : ℤ), ⟨10, 'A', ["r1", "r2", "r3"],
      [('A', ""), ('A', ""), ('A', "")], ['I', 'I', 'I'],
      ['I', 'I', 'I'], 0, some 3⟩)] 2
    (by decide) (by decide) (by decide) (by decide)
  exact ⟨h.1, h.2.1⟩

/-! ## Tensor builder (`get_tensor_info`, `Position.update_infos`,
`generate_tensor`, lines 145-184, 82-94, 345-446) -/

/-- Modelled from the spec: `ACGT_NUM` lives in `src/create_tensor.py`,
which is not under `src/`.  The spec fixes the base codes A→1, C→2, G→3,
T→4 (channel table of §4.6); the codes of the `+`/`-` markers and of the
`*`/`#` gap are not pinned by the spec and get arbitrary values here — no
theorem depends on them. -/
def acgtNum (c : Char) : ℤ :=
  if c = 'A' then 1 else if c = 'C' then 2 else if c = 'G' then 3
  else if c = 'T' then 4 else if c = '+' then -1 else if c = '-' then -2
  else 0

/-- Modelled from the spec: `normalize_bq`, `normalize_mq` and the
`NORMAL_HAP_TYPE`/`TUMOR_HAP_TYPE` palettes live in `src/create_tensor.py`,
which is not under `src/`; they are kept abstract as record fields. -/
structure Ext where
  nbq : ℤ → ℤ
  nmq : ℤ → ℤ
  normalHap : ℕ → ℤ
  tumorHap : ℕ → ℤ

/-- `STRAND_0` (spec: forward = 0). -/
def STRAND_0 : ℤ := 0

/-- `STRAND_1` (spec: reverse = 1). -/
def STRAND_1 : ℤ := 1

/-- `phredscore2raw_score` (line 97). -/
def phredscore2raw_score (c : Char) : ℤ := (c.toNat : ℤ) - 33

/-- `evc_base_from` (lines 101-111). -/
def evc_base_from (b : Char) : Char :=
  if b = 'N' then 'A'
  else if b = 'n' then 'a'
  else if b ∈ (['A', 'C', 'G', 'T', 'a', 'c', 'g', 't'] : List Char) then b
  else if b.isUpper then 'A'
  else 'a'

/-- `get_tensor_info` (lines 145-184): returns
`(read_channel, ins_base, query_base)`. -/
def get_tensor_info (ext : Ext) (base_info : Char × String) (bq : ℤ)
    (ref_base : Char) (mask_low_bq : Bool) (read_mq : ℤ) (is_tumor : Bool)
    (hp : ℕ) : List ℤ × String × String :=
  let hap_type := if is_tumor then ext.tumorHap hp else ext.normalHap hp
  let base := base_info.1
  let indel := base_info.2
  if base = '*' ∨ base = '#' then
    ([0, acgtNum base, 0, 0, 0, 0, 0, 0], "", "")
  else
    let strand := if base ∈ ACGTChars then STRAND_0 else STRAND_1
    let base_upper := base.toUpper
    let ab : ℤ × ℤ :=
      if indel ≠ "" then (acgtNum (indel.toList.headD ' '), bq)
      else if base_upper ≠ ref_base ∧ base_upper ∈ ACGTChars then
        let bu := evc_base_from base_upper
        if mask_low_bq ∧ bq < 33 ∧ acgtNum bu ≠ 0 then (0, 0)
        else (acgtNum bu, bq)
      else (0, bq)
    let ins_base := if indel.toList.head? = some '+' then
        String.mk ((indel.toList.drop 1).map Char.toUpper) else ""
    let query_base := if base_upper ∈ ACGTChars then String.mk [base_upper]
      else ""
    ([acgtNum ref_base, ab.1, strand, ab.2, read_mq, hap_type, 0, 0],
      ins_base, query_base)

/-- `Position.update_infos` (lines 82-94): build `read_info`, the map from
read name to `(read_channel, ins_base)`.  The source looks up
`hap_dict[read_name] if read_name in hap_dict else 0`; since stored
haplotypes are 1 or 2, the total function with default 0 is the same map. -/
def update_infos (ext : Ext) (is_tumor : Bool) (hapDict : String → ℕ)
    (mask_low_bq : Bool) (p : Position) :
    List (String × (List ℤ × String)) :=
  let base_quality := p.raw_base_quality.map
    (fun c => ext.nbq (phredscore2raw_score c))
  let mapping_quality := p.raw_mapping_quality.map
    (fun c => ext.nmq (phredscore2raw_score c))
  ((p.read_name_list.zip p.base_list).zip
    (base_quality.zip mapping_quality)).foldl
    (fun ri x =>
      let r := get_tensor_info ext x.1.2 x.2.1 p.ref_base mask_low_bq x.2.2
        is_tumor (hapDict x.1.1)
      dictInsert x.1.1 (r.1, r.2.1) ri) []

/-- Row `i` of a 3-d list tensor. -/
def row3 (t : List (List (List ℤ))) (i : ℕ) : List (List ℤ) := t.getD i []

/-- Cell `(i, j)` of a 3-d list tensor. -/
def cellVec (t : List (List (List ℤ))) (i j : ℕ) : List ℤ :=
  (row3 t i).getD j []

/-- Channel `k` of cell `(i, j)`. -/
def cellAt (t : List (List (List ℤ))) (i j k : ℕ) : ℤ :=
  (cellVec t i j).getD k 0

/-- `tensor[i][j] = v`. -/
def setCell (t : List (List (List ℤ))) (i j : ℕ) (v : List ℤ) :
    List (List (List ℤ)) :=
  t.set i ((row3 t i).set j v)

/-- `tensor[i][j][k] = x`. -/
def setChan (t : List (List (List ℤ))) (i j k : ℕ) (x : ℤ) :
    List (List (List ℤ)) :=
  setCell t i j ((cellVec t i j).set k x)

/-- The insertion write-back loop body (lines 406-409): one
`insert_tuple = (read_idx, offset, ins_base, p)` writes
`ACGT_NUM[ins_base[ins_idx]]` into channel 6 of columns
`offset + ins_idx` for `ins_idx < min(len(ins_base), no_of_positions -
offset)`. -/
def applyInsert (W : ℕ) (t : List (List (List ℤ)))
    (tup : ℕ × ℕ × String × ℤ) : List (List (List ℤ)) :=
  (List.range (min tup.2.2.1.length (W - tup.2.1))).foldl
    (fun tt insIdx => setChan tt tup.1 (insIdx + tup.2.1) 6
      (acgtNum (tup.2.2.1.toList.getD insIdx ' '))) t

/-- The tensor-filling double loop (lines 393-404): for each window
position and each sorted read, copy the read channel into the tensor and
record insertion tuples. -/
def fillTensor (P : Profile) (ext : Ext) (mask_low_bq is_tumor : Bool)
    (hapDict : String → ℕ) (pileup_dict : List (ℤ × Position))
    (sorted_read_name_list : List (ℕ × ℕ × String)) (center_pos : ℤ)
    (t0 : List (List (List ℤ))) :
    List (List (List ℤ)) × List (ℕ × ℕ × String × ℤ) :=
  let start_pos := center_pos - P.flankingBaseNum
  let end_pos := center_pos + P.flankingBaseNum + 1
  (intRange start_pos end_pos).foldl
    (fun acc p =>
      let readInfo := match dictFind p pileup_dict with
        | some ps => update_infos ext is_tumor hapDict mask_low_bq ps
        | none => []
      sorted_read_name_list.enum.foldl
        (fun acc2 re =>
          let offset := (p - start_pos).toNat
          match dictFind re.2.2.2 readInfo with
          | some rcIns =>
              let t2 := setCell acc2.1 re.1 offset rcIns.1
              if rcIns.2 ≠ "" ∧ p < end_pos - 1 then
                (t2, acc2.2 ++ [(re.1, offset, rcIns.2, p)])
              else (t2, acc2.2)
          | none => acc2) acc)
    (t0, [])

/-- Python slice `l[a:b]` for non-negative bounds. -/
def listSliceZ (l : List Char) (a b : ℤ) : List Char :=
  (l.drop a.toNat).take (b - a).toNat

/-- Result of `generate_tensor`: the tensor array, its serialized string,
and the alt-info string (`None` return modelled as `none`). -/
structure GTOut where
  tensor : List (List (List ℤ))
  tensor_str : String
  alt_info : String
deriving DecidableEq

/-- Serialization of the tensor (lines 443-444): rows, columns and channels
are all joined with single spaces. -/
def tensorToString (t : List (List (List ℤ))) : String :=
  String.intercalate " " (t.map (fun outerlist =>
    String.intercalate " " (outerlist.map (fun innerlist =>
      String.intercalate " " (innerlist.map (fun x => toString x))))))

/-- The `af_infos` string (lines 428-431): the joined, descending-sorted,
non-zero members of `af_set` — a set that is never populated in the
source. -/
def afInfosOf (af_set : List ℚ) : String :=
  String.intercalate " "
    (((List.insertionSort (fun a b : ℚ => b ≤ a) af_set).filter
      (fun x => x ≠ 0)).map (fun x => toString x))

/-- `generate_tensor` (lines 345-446). -/
def generate_tensor (P : Profile) (ext : Ext) (mask_low_bq : Bool)
    (center_pos : ℤ) (sorted_read_name_list : List (ℕ × ℕ × String))
    (pileup_dict : List (ℤ × Position)) (ref_seq : List Char)
    (reference_sequence : List Char) (reference_start : ℤ)
    (confident_bed : Option (ℤ → ℤ → Bool)) (is_tumor : Bool)
    (hapDict : String → ℕ) : Option GTOut :=
  let reference_base := ref_seq.getD P.flankingBaseNum 'N'
  let tensor_depth := sorted_read_name_list.length
  if tensor_depth = 0 then none
  else
    let pass_confident_bed := match confident_bed with
      | none => true
      | some f => f (center_pos - 2) (center_pos + P.flankingBaseNum + 1)
    if pass_confident_bed = false then none
    else
      let t0 := List.replicate tensor_depth
        (List.replicate (noOfPositions P) (List.replicate channelSize (0 : ℤ)))
      let fr := fillTensor P ext mask_low_bq is_tumor hapDict pileup_dict
        sorted_read_name_list center_pos t0
      let tensor := fr.2.foldl (applyInsert (noOfPositions P)) fr.1
      let center_base_list := match dictFind center_pos pileup_dict with
        | some ps => ps.base_list
        | none => []
      let ad := center_base_list.foldl
        (fun (acc : List (String × ℕ) × ℕ × ℕ) bi =>
          if bi.1 = '#' ∨ bi.1 = '*' then (acc.1, acc.2.1 + 1, acc.2.2)
          else
            let base_upper := bi.1.toUpper
            if bi.2 ≠ "" then
              if bi.2.toList.head? = some '+' then
                (dictAdd (String.mk ('+' :: base_upper ::
                    (bi.2.toList.drop 1).map Char.toUpper)) 1 acc.1,
                  acc.2.1 + 1, acc.2.2)
              else
                (dictAdd (String.mk (bi.2.toList.map Char.toUpper)) 1 acc.1,
                  acc.2.1 + 1, max bi.2.length acc.2.2)
            else if base_upper ≠ reference_base then
              (dictAdd (String.mk [base_upper]) 1 acc.1, acc.2.1 + 1, acc.2.2)
            else (acc.1, acc.2.1 + 1, acc.2.2))
        ([], 0, 0)
      let af_infos := afInfosOf []
      let alt_info_list := ad.1.map (fun kv =>
        if kv.1.toList.head? = some '+' then
          ("I" ++ String.mk ((kv.1.toList.drop 1).map Char.toUpper),
            toString kv.2)
        else if kv.1.toList.head? = some '-' then
          ("D" ++ String.mk (listSliceZ reference_sequence
              (center_pos - reference_start + 1)
              (center_pos - reference_start + (kv.1.length - 1 : ℕ) + 1)),
            toString kv.2)
        else ("X" ++ kv.1, toString kv.2))
      let alt_info := toString ad.2.1 ++ "-" ++ String.intercalate " "
        (alt_info_list.map (fun ab => ab.1 ++ " " ++ ab.2)) ++ "-" ++ af_infos
      some ⟨tensor, tensorToString tensor, alt_info⟩

lemma getD_set_self {α : Type} :
    ∀ (l : List α) (i : ℕ) (v d : α), i < l.length →
      (l.set i v).getD i d = v := by
  intro l
  induction l with
  | nil => intro i v d h; simp at h
  | cons a t ih =>
      intro i v d h
      cases i with
      | zero => rfl
      | succ i =>
          simp only [List.set_cons_succ, List.getD_cons_succ]
          exact ih i v d (by simpa using h)

lemma getD_set_ne {α : Type} :
    ∀ (l : List α) (i j : ℕ) (v d : α), i ≠ j →
      (l.set i v).getD j d = l.getD j d := by
  intro l
  induction l with
  | nil => intro i j v d _; simp [List.set]
  | cons a t ih =>
      intro i j v d hij
      cases i with
      | zero =>
          cases j with
          | zero => exact absurd rfl hij
          | succ j => rfl
      | succ i =>
          cases j with
          | zero => rfl
          | succ j =>
              simp only [List.set_cons_succ, List.getD_cons_succ]
              exact ih i j v d (fun h => hij (by rw [h]))

lemma set_oob {α : Type} :
    ∀ (l : List α) (i : ℕ) (v : α), l.length ≤ i → l.set i v = l := by
  intro l
  induction l with
  | nil => intro i v _; rfl
  | cons a t ih =>
      intro i v h
      cases i with
      | zero => simp at h
      | succ i =>
          simp only [List.set_cons_succ]
          rw [ih i v (by simpa using h)]

/-- Row/column/channel shape of a 3-d list tensor. -/
def Shape (t : List (List (List ℤ))) (D W C : ℕ) : Prop :=
  t.length = D ∧ ∀ row ∈ t, row.length = W ∧ ∀ cell ∈ row, cell.length = C

instance (t : List (List (List ℤ))) (D W C : ℕ) : Decidable (Shape t D W C) := by
  unfold Shape
  infer_instance

lemma shape_replicate (D W C : ℕ) :
    Shape (List.replicate D (List.replicate W (List.replicate C (0 : ℤ))))
      D W C := by
  refine ⟨by simp, ?_⟩
  intro row hrow
  rw [List.eq_of_mem_replicate hrow]
  refine ⟨by simp, ?_⟩
  intro cell hcell
  rw [List.eq_of_mem_replicate hcell]
  simp

lemma shape_setCell {t : List (List (List ℤ))} {D W C : ℕ}
    (h : Shape t D W C) (i j : ℕ) {v : List ℤ} (hv : v.length = C) :
    Shape (setCell t i j v) D W C := by
  obtain ⟨hD, hrows⟩ := h
  by_cases hi : i < t.length
  · constructor
    · simpa [setCell] using hD
    · intro row hrow
      rcases List.mem_or_eq_of_mem_set hrow with hmem | heq
      · exact hrows row hmem
      · subst heq
        have hrmem : row3 t i ∈ t := by
          unfold row3
          rw [List.getD_eq_getElem?_getD, List.getElem?_eq_getElem hi]
          exact List.getElem_mem hi
        obtain ⟨hw, hcells⟩ := hrows _ hrmem
        constructor
        · simpa using hw
        · intro cell hcell
          rcases List.mem_or_eq_of_mem_set hcell with hmem | heq
          · exact hcells cell hmem
          · exact heq ▸ hv
  · unfold setCell
    rw [set_oob t i _ (by omega)]
    exact ⟨hD, hrows⟩

lemma shape_setChan {t : List (List (List ℤ))} {D W C : ℕ}
    (h : Shape t D W C) (i j k : ℕ) (x : ℤ) :
    Shape (setChan t i j k x) D W C := by
  unfold setChan
  by_cases hi : i < t.length
  · have hrmem : row3 t i ∈ t := by
      unfold row3
      rw [List.getD_eq_getElem?_getD, List.getElem?_eq_getElem hi]
      exact List.getElem_mem hi
    by_cases hj : j < (row3 t i).length
    · have hcmem : cellVec t i j ∈ row3 t i := by
        unfold cellVec
        rw [List.getD_eq_getElem?_getD, List.getElem?_eq_getElem hj]
        exact List.getElem_mem hj
      have hclen : (cellVec t i j).length = C :=
        (h.2 _ hrmem).2 _ hcmem
      exact shape_setCell h i j (by simpa using hclen)
    · unfold setCell
      rw [set_oob (row3 t i) j _ (by omega)]
      constructor
      · simpa using h.1
      · intro row hrow
        rcases List.mem_or_eq_of_mem_set hrow with hmem | heq
        · exact h.2 row hmem
        · exact heq ▸ h.2 _ hrmem
  · unfold setCell
    rw [set_oob t i _ (by omega)]
    exact h

lemma foldl_preserve {σ ι : Type} (Q : σ → Prop) :
    ∀ (l : List ι) (f : σ → ι → σ) (s : σ), Q s →
      (∀ s i, i ∈ l → Q s → Q (f s i)) → Q (l.foldl f s) := by
  intro l
  induction l with
  | nil => intro f s hs _; exact hs
  | cons a t ih =>
      intro f s hs hstep
      rw [List.foldl_cons]
      exact ih f (f s a) (hstep s a (by simp) hs)
        (fun s2 i hi h2 => hstep s2 i (by simp [hi]) h2)

lemma get_tensor_info_len (ext : Ext) (bi : Char × String) (bq : ℤ)
    (rb : Char) (mlb : Bool) (mq : ℤ) (it : Bool) (hp : ℕ) :
    (get_tensor_info ext bi bq rb mlb mq it hp).1.length = 8 := by
  unfold get_tensor_info
  dsimp only
  split_ifs <;> rfl

lemma dictInsert_mem {α β : Type} [DecidableEq α] (k : α) (v : β) :
    ∀ (l : List (α × β)) (kv : α × β),
      kv ∈ dictInsert k v l → kv ∈ l ∨ kv = (k, v) := by
  intro l
  induction l with
  | nil =>
      intro kv h
      right
      simpa [dictInsert] using h
  | cons a t ih =>
      intro kv h
      obtain ⟨k0, v0⟩ := a
      unfold dictInsert at h
      split_ifs at h with hk
      · rcases List.mem_cons.mp h with h | h
        · right; rw [h, hk]
        · left; exact List.mem_cons_of_mem _ h
      · rcases List.mem_cons.mp h with h | h
        · left; simp [h]
        · rcases ih kv h with h2 | h2
          · left; exact List.mem_cons_of_mem _ h2
          · right; exact h2

lemma update_infos_values (ext : Ext) (it : Bool) (hd : String → ℕ)
    (mlb : Bool) (ps : Position) :
    ∀ kv ∈ update_infos ext it hd mlb ps, kv.2.1.length = 8 := by
  unfold update_infos
  refine foldl_preserve
    (fun ri : List (String × (List ℤ × String)) =>
      ∀ kv ∈ ri, kv.2.1.length = 8) _ _ _ (by simp) ?_
  intro s x _ hs kv hkv
  rcases dictInsert_mem _ _ _ _ hkv with hmem | heq
  · exact hs kv hmem
  · rw [heq]
    exact get_tensor_info_len _ _ _ _ _ _ _ _

lemma shape_fillTensor (P : Profile) (ext : Ext) (mlb it : Bool)
    (hapDict : String → ℕ) (pd : List (ℤ × Position))
    (srl : List (ℕ × ℕ × String)) (cp : ℤ) (t0 : List (List (List ℤ)))
    {D W : ℕ} (h0 : Shape t0 D W 8) :
    Shape (fillTensor P ext mlb it hapDict pd srl cp t0).1 D W 8 := by
  unfold fillTensor
  dsimp only
  refine foldl_preserve
    (fun acc : List (List (List ℤ)) × List (ℕ × ℕ × String × ℤ) =>
      Shape acc.1 D W 8) _ _ _ h0 ?_
  intro acc p _ hacc
  dsimp only
  refine foldl_preserve
    (fun acc2 : List (List (List ℤ)) × List (ℕ × ℕ × String × ℤ) =>
      Shape acc2.1 D W 8) _ _ _ hacc ?_
  intro s re _ hs
  dsimp only
  have hri : ∀ kv ∈ (match dictFind p pd with
      | some ps => update_infos ext it hapDict mlb ps
      | none => ([] : List (String × (List ℤ × String)))),
      kv.2.1.length = 8 := by
    cases dictFind p pd with
    | none => simp
    | some ps => exact update_infos_values ext it hapDict mlb ps
  cases hfind : dictFind re.2.2.2 (match dictFind p pd with
      | some ps => update_infos ext it hapDict mlb ps
      | none => ([] : List (String × (List ℤ × String)))) with
  | none => exact hs
  | some rcIns =>
      have hlen : rcIns.1.length = 8 :=
        hri _ (mem_of_dictFind_eq_some hfind)
      have hset : Shape (setCell s.1 re.1
          (p - (cp - (P.flankingBaseNum : ℤ))).toNat rcIns.1) D W 8 :=
        shape_setCell hs _ _ hlen
      dsimp only
      split_ifs <;> exact hset

lemma shape_applyInsert {t : List (List (List ℤ))} {D W C : ℕ}
    (h : Shape t D W C) (W2 : ℕ) (tup : ℕ × ℕ × String × ℤ) :
    Shape (applyInsert W2 t tup) D W C := by
  unfold applyInsert
  refine foldl_preserve (fun tt => Shape tt D W C) _ _ _ h ?_
  intro s i _ hs
  exact shape_setChan hs _ _ _ _

/-- C10: in `generate_tensor` the `af_set` passed into the af-infos field is
always the empty set (lines 413, 428-431 never add to it), so the third
`-`-separated component of `alt_info` is the empty string and every emitted
`alt_info` ends with a trailing `-`. -/
lemma exists_trailing_dash (a : String) :
    ∃ s, a ++ "-" ++ afInfosOf [] = s ++ "-" :=
  ⟨a, by rw [show afInfosOf ([] : List ℚ) = "" from rfl, String.append_empty]⟩

theorem alt_info_trailing_dash (P : Profile) (ext : Ext) (mlb : Bool)
    (cp : ℤ) (srl : List (ℕ × ℕ × String)) (pd : List (ℤ × Position))
    (rs refseq : List Char) (rstart : ℤ) (cb : Option (ℤ → ℤ → Bool))
    (it : Bool) (hd : String → ℕ) (out : GTOut)
    (hgen : generate_tensor P ext mlb cp srl pd rs refseq rstart cb it hd
      = some out) :
    afInfosOf [] = "" ∧ ∃ s, out.alt_info = s ++ "-" := by
  refine ⟨rfl, ?_⟩
  unfold generate_tensor at hgen
  dsimp only at hgen
  split_ifs at hgen
  rw [Option.some.injEq] at hgen
  rw [← hgen]
  dsimp only
  exact exists_trailing_dash _

/-- Witness for `alt_info_trailing_dash` at a concrete call. -/
theorem alt_info_trailing_dash_witness :
    afInfosOf [] = "" ∧ ∃ s,
      ((generate_tensor ⟨1, 1, 1, 1⟩ ⟨fun x => x, fun x => x, fun _ => 0,
          fun _ => 0⟩ false 10 [(0, 0, "r1")] [] "TAG".toList
          "TTAGT".toList 8 none false (fun _ => 0)).getD
        ⟨[], "", ""⟩).alt_info = s ++ "-" :=
  alt_info_trailing_dash _ _ _ _ _ _ _ _ _ _ _ _ _
    (eq_some_getD _ _ (by decide))

lemma shape_cell_lengths {t : List (List (List ℤ))} {D W C : ℕ}
    (h : Shape t D W C) {i j : ℕ} (hi : i < D) (hj : j < W) :
    i < t.length ∧ j < (row3 t i).length ∧ (cellVec t i j).length = C := by
  have hi2 : i < t.length := by rw [h.1]; exact hi
  have hrow : row3 t i ∈ t := by
    unfold row3
    rw [List.getD_eq_getElem?_getD, List.getElem?_eq_getElem hi2]
    exact List.getElem_mem hi2
  have hW := (h.2 _ hrow).1
  have hj2 : j < (row3 t i).length := by rw [hW]; exact hj
  have hcell : cellVec t i j ∈ row3 t i := by
    unfold cellVec
    rw [List.getD_eq_getElem?_getD, List.getElem?_eq_getElem hj2]
    exact List.getElem_mem hj2
  exact ⟨hi2, hj2, (h.2 _ hrow).2 _ hcell⟩

lemma cellAt_setChan_same (t : List (List (List ℤ))) (i j k : ℕ) (x : ℤ)
    (hi : i < t.length) (hj : j < (row3 t i).length)
    (hk : k < (cellVec t i j).length) :
    cellAt (setChan t i j k x) i j k = x := by
  unfold cellAt cellVec row3 setChan setCell
  rw [getD_set_self _ _ _ _ hi, getD_set_self _ _ _ _ hj]
  exact getD_set_self _ _ _ _ hk

lemma cellAt_setChan_ne (t : List (List (List ℤ))) (i j k : ℕ) (x : ℤ)
    (r c k2 : ℕ) (h : ¬(r = i ∧ c = j ∧ k2 = k)) :
    cellAt (setChan t i j k x) r c k2 = cellAt t r c k2 := by
  unfold setChan setCell cellAt cellVec row3
  by_cases hr : r = i
  · subst hr
    by_cases hrlen : r < t.length
    · rw [getD_set_self _ _ _ _ hrlen]
      by_cases hc : c = j
      · subst hc
        have hkk : k2 ≠ k := fun he => h ⟨rfl, rfl, he⟩
        by_cases hclen : c < (t.getD r []).length
        · rw [getD_set_self _ _ _ _ hclen]
          exact getD_set_ne _ _ _ _ _ (Ne.symm hkk)
        · rw [set_oob _ _ _ (Nat.le_of_not_lt hclen)]
      · rw [getD_set_ne _ _ _ _ _ (Ne.symm hc)]
    · rw [set_oob t r _ (Nat.le_of_not_lt hrlen)]
  · rw [getD_set_ne _ _ _ _ _ (Ne.symm hr)]

lemma write_range_spec (ridx o : ℕ) (f : ℕ → ℤ) {D W : ℕ} :
    ∀ (m : ℕ) (t : List (List (List ℤ))), Shape t D W 8 → ridx < D →
      (∀ i, i < m → o + i < W) →
      ((∀ i, i < m →
        cellAt ((List.range m).foldl
          (fun tt insIdx => setChan tt ridx (insIdx + o) 6 (f insIdx)) t)
          ridx (o + i) 6 = f i)
      ∧ (∀ r c k, (r ≠ ridx ∨ c < o ∨ o + m ≤ c ∨ k ≠ 6) →
        cellAt ((List.range m).foldl
          (fun tt insIdx => setChan tt ridx (insIdx + o) 6 (f insIdx)) t)
          r c k = cellAt t r c k)
      ∧ Shape ((List.range m).foldl
          (fun tt insIdx => setChan tt ridx (insIdx + o) 6 (f insIdx)) t)
          D W 8) := by
  intro m
  induction m with
  | zero =>
      intro t ht hr _
      exact ⟨fun i hi => absurd hi (by omega), fun _ _ _ _ => rfl, ht⟩
  | succ m ih =>
      intro t ht hr hw
      have hw2 : ∀ i, i < m → o + i < W := fun i hi => hw i (by omega)
      obtain ⟨ih1, ih2, ih3⟩ := ih t ht hr hw2
      rw [List.range_succ, List.foldl_append, List.foldl_cons, List.foldl_nil]
      have hcolW : o + m < W := hw m (by omega)
      obtain ⟨hb1, hb2, hb3⟩ := shape_cell_lengths ih3 hr hcolW
      refine ⟨?_, ?_, ?_⟩
      · intro i hi
        by_cases him : i = m
        · subst him
          rw [Nat.add_comm o i]
          exact cellAt_setChan_same _ _ _ _ _ hb1
            (by rw [Nat.add_comm i o]; exact hb2)
            (by rw [Nat.add_comm i o, hb3]; omega)
        · rw [cellAt_setChan_ne _ _ _ _ _ _ _ _ (by
            rintro ⟨-, hcol, -⟩
            omega)]
          exact ih1 i (by omega)
      · intro r c k hout
        rw [cellAt_setChan_ne _ _ _ _ _ _ _ _ (by
          rintro ⟨rfl, rfl, rfl⟩
          rcases hout with h | h | h | h
          · exact h rfl
          · omega
          · omega
          · exact h rfl)]
        apply ih2
        rcases hout with h | h | h | h
        · exact Or.inl h
        · exact Or.inr (Or.inl h)
        · exact Or.inr (Or.inr (Or.inl (by omega)))
        · exact Or.inr (Or.inr (Or.inr h))
      · exact shape_setChan ih3 _ _ _ _

/-- C2 (corrected): an insertion tuple `(read_idx, offset, ins_base, p)` is
written back into channel 6 of columns `offset + ins_idx` for
`ins_idx < min(len(ins_base), W - offset)` — the first inserted base lands
at column `offset` itself, not at `offset + 1` — and every other cell of
the tensor is untouched by the write-back. -/
theorem insert_channel_spec (W D : ℕ) (t : List (List (List ℤ)))
    (ridx o : ℕ) (ins : String) (cp : ℤ)
    (ht : Shape t D W 8) (hr : ridx < D) :
    (∀ i, i < min ins.length (W - o) →
      cellAt (applyInsert W t (ridx, o, ins, cp)) ridx (o + i) 6 =
        acgtNum (ins.toList.getD i ' '))
    ∧ ∀ r c k, (r ≠ ridx ∨ c < o ∨ o + min ins.length (W - o) ≤ c ∨ k ≠ 6) →
      cellAt (applyInsert W t (ridx, o, ins, cp)) r c k = cellAt t r c k := by
  unfold applyInsert
  dsimp only
  have h := write_range_spec ridx o
    (fun insIdx => acgtNum (ins.toList.getD insIdx ' '))
    (min ins.length (W - o)) t ht hr (fun i hi => by omega)
  exact ⟨h.1, h.2.1⟩

/-- Counterexample to C2 as stated: with `F = 1`, a read whose base at the
center position 10 is `A` carrying the insertion `+AC` (window offset
`o = 1` = center column `F`) gets channel 6 of its row set to `1` (`A`) at
column `o = 1` and `2` (`C`) at column `o + 1 = 2`; the claim predicts the
spill starts at column `o + 1`, i.e. channel-6 values `(0, 1)` at columns
`(1, 2)`. -/
theorem insert_channel_cex :
    (generate_tensor ⟨1, 1, 1, 1⟩
        ⟨fun x => x, fun x => x, fun _ => 0, fun _ => 100⟩ false 10
        [(0, 0, "r1"), (0, 1, "r2")]
        [(10, ⟨10, 'A', ["r1", "r2"], [('A', "+AC"), ('C', "")],
          ['I', 'I'], ['J', 'J'], 0, some 2⟩)]
        "TAG".toList "TTAGT".toList 8 none true (fun _ => 0)).map
      (fun g => (cellAt g.tensor 0 1 6, cellAt g.tensor 0 2 6))
      = some (1, 2) ∧ ((1 : ℤ), (2 : ℤ)) ≠ ((0 : ℤ), (1 : ℤ)) :=
  ⟨by decide, by decide⟩

/-- Witness for `insert_channel_spec` on a concrete 1×3×8 zero tensor with
insertion `AC` at offset 1. -/
theorem insert_channel_witness :
    (∀ i, i < min ("AC".length) (3 - 1) →
      cellAt (applyInsert 3 (List.replicate 1 (List.replicate 3
          (List.replicate 8 (0 : ℤ)))) (0, 1, "AC", 0)) 0 (1 + i) 6 =
        acgtNum ("AC".toList.getD i ' '))
    ∧ ∀ r c k, (r ≠ 0 ∨ c < 1 ∨ 1 + min ("AC".length) (3 - 1) ≤ c ∨ k ≠ 6) →
      cellAt (applyInsert 3 (List.replicate 1 (List.replicate 3
          (List.replicate 8 (0 : ℤ)))) (0, 1, "AC", 0)) r c k =
        cellAt (List.replicate 1 (List.replicate 3 (List.replicate 8
          (0 : ℤ)))) r c k :=
  insert_channel_spec 3 1 _ 0 1 "AC" 0 (by decide) (by decide)

lemma sorted_by_hap_len (P : Profile) (sample : ℕ → ℕ → List ℕ) (cp : ℤ)
    (htd : String → ℕ) (pd : List (ℤ × Position)) (hd : String → ℕ)
    (md : ℕ) (tsm : Bool) :
    (sorted_by_hap_read_name P sample cp htd pd hd md tsm).length =
      (subsampledNames sample md tsm (all_nearby_read_name P cp pd)).length := by
  unfold sorted_by_hap_read_name
  dsimp only
  rw [(List.perm_insertionSort _ _).length_eq, List.length_map,
    List.enum_length]

lemma subsampledNames_length_le (sample : ℕ → ℕ → List ℕ) (md : ℕ)
    (allNearby : List String)
    (hlen : (sample allNearby.length md).length = md) :
    (subsampledNames sample md false allNearby).length ≤ md := by
  unfold subsampledNames
  split_ifs with h
  · rw [List.length_map, (List.perm_insertionSort _ _).length_eq, hlen]
  · rcases le_or_lt allNearby.length md with hle | hlt
    · exact hle
    · exact absurd ⟨hlt, rfl⟩ h

/-- C3 (corrected): the emitted tensor has exactly
`len(sorted_read_name_list)` rows — the number of (subsampled, sorted) read
names, which is at most `max_depth` but need not equal it — and every row
has exactly `no_of_positions = 2F+1` columns of `channel_size` channels. -/
theorem tensor_shape_spec (P : Profile) (ext : Ext) (mlb : Bool) (cp : ℤ)
    (sample : ℕ → ℕ → List ℕ) (htd hd : String → ℕ)
    (pd : List (ℤ × Position)) (max_depth : ℕ)
    (rs refseq : List Char) (rstart : ℤ) (cb : Option (ℤ → ℤ → Bool))
    (it : Bool) (out : GTOut)
    (hlen : ∀ n, (sample n max_depth).length = max_depth)
    (hgen : generate_tensor P ext mlb cp
        (sorted_by_hap_read_name P sample cp htd pd hd max_depth false)
        pd rs refseq rstart cb it hd = some out) :
    out.tensor.length =
      (sorted_by_hap_read_name P sample cp htd pd hd max_depth false).length
    ∧ (sorted_by_hap_read_name P sample cp htd pd hd max_depth false).length
        ≤ max_depth
    ∧ ∀ row ∈ out.tensor, row.length = noOfPositions P
        ∧ ∀ cell ∈ row, cell.length = channelSize := by
  have hsl : (sorted_by_hap_read_name P sample cp htd pd hd max_depth
      false).length ≤ max_depth := by
    rw [sorted_by_hap_len]
    exact subsampledNames_length_le _ _ _ (hlen _)
  unfold generate_tensor at hgen
  dsimp only at hgen
  split_ifs at hgen
  rw [Option.some.injEq] at hgen
  have hshape : Shape out.tensor
      (sorted_by_hap_read_name P sample cp htd pd hd max_depth false).length
      (noOfPositions P) 8 := by
    rw [← hgen]
    dsimp only
    refine foldl_preserve (fun tt => Shape tt _ _ 8) _ _ _ ?_ ?_
    · exact shape_fillTensor P ext mlb it hd pd _ cp _
        (shape_replicate _ _ channelSize)
    · intro s tup _ hs
      exact shape_applyInsert hs _ _
  exact ⟨hshape.1, hsl, fun row hrow =>
    ⟨(hshape.2 row hrow).1, fun cell hcell =>
      (hshape.2 row hrow).2 cell hcell⟩⟩

/-- Counterexample to C3 as stated: with `max_depth = 4` (the per-sample
maximum depth) but a single read present in the window, the emitted tensor
has 1 row, not `D_sample = 4` rows. -/
theorem tensor_shape_cex :
    ((generate_tensor ⟨1, 1, 1, 1⟩
        ⟨fun x => x, fun x => x, fun _ => 0, fun _ => 100⟩ false 10
        (sorted_by_hap_read_name ⟨1, 1, 1, 1⟩ (fun _ k => List.range k) 10
          (fun _ => 0)
          [(10, ⟨10, 'A', ["r1"], [('A', "")], ['I'], ['J'], 0, some 1⟩)]
          (fun _ => 0) 4 false)
        [(10, ⟨10, 'A', ["r1"], [('A', "")], ['I'], ['J'], 0, some 1⟩)]
        "TAG".toList "TTAGT".toList 8 none true (fun _ => 0)).map
      (fun g => g.tensor.length) = some 1) ∧ (1 : ℕ) ≠ 4 :=
  ⟨by decide, by decide⟩

/-- Witness for `tensor_shape_spec` at a concrete single-read call with
`max_depth = 4`. -/
theorem tensor_shape_witness :
    ((generate_tensor ⟨1, 1, 1, 1⟩
        ⟨fun x => x, fun x => x, fun _ => 0, fun _ => 100⟩ false 10
        (sorted_by_hap_read_name ⟨1, 1, 1, 1⟩ (fun _ k => List.range k) 10
          (fun _ => 0)
          [(10, ⟨10, 'A', ["r1"], [('A', "")], ['I'], ['J'], 0, some 1⟩)]
          (fun _ => 0) 4 false)
        [(10, ⟨10, 'A', ["r1"], [('A', "")], ['I'], ['J'], 0, some 1⟩)]
        "TAG".toList "TTAGT".toList 8 none true (fun _ => 0)).getD
      ⟨[], "", ""⟩).tensor.length =
      (sorted_by_hap_read_name ⟨1, 1, 1, 1⟩ (fun _ k => List.range k) 10
        (fun _ => 0)
        [(10, ⟨10, 'A', ["r1"], [('A', "")], ['I'], ['J'], 0, some 1⟩)]
        (fun _ => 0) 4 false).length
    ∧ (sorted_by_hap_read_name ⟨1, 1, 1, 1⟩ (fun _ k => List.range k) 10
        (fun _ => 0)
        [(10, ⟨10, 'A', ["r1"], [('A', "")], ['I'], ['J'], 0, some 1⟩)]
        (fun _ => 0) 4 false).length ≤ 4
    ∧ ∀ row ∈ ((generate_tensor ⟨1, 1, 1, 1⟩
        ⟨fun x => x, fun x => x, fun _ => 0, fun _ => 100⟩ false 10
        (sorted_by_hap_read_name ⟨1, 1, 1, 1⟩ (fun _ k => List.range k) 10
          (fun _ => 0)
          [(10, ⟨10, 'A', ["r1"], [('A', "")], ['I'], ['J'], 0, some 1⟩)]
          (fun _ => 0) 4 false)
        [(10, ⟨10, 'A', ["r1"], [('A', "")], ['I'], ['J'], 0, some 1⟩)]
        "TAG".toList "TTAGT".toList 8 none true (fun _ => 0)).getD
      ⟨[], "", ""⟩).tensor, row.length = noOfPositions ⟨1, 1, 1, 1⟩
        ∧ ∀ cell ∈ row, cell.length = channelSize :=
  tensor_shape_spec ⟨1, 1, 1, 1⟩
    ⟨fun x => x, fun x => x, fun _ => 0, fun _ => 100⟩ false 10
    (fun _ k => List.range k) (fun _ => 0) (fun _ => 0)
    [(10, ⟨10, 'A', ["r1"], [('A', "")], ['I'], ['J'], 0, some 1⟩)] 4
    "TAG".toList "TTAGT".toList 8 none true _
    (fun _ => List.length_range 4) (eq_some_getD _ _ (by decide))

/-! ## Per-candidate main-loop body (`create_pair_tensor`, lines 758-812) -/

/-- One output record of `create_pair_tensor` (the tab-joined columns of
lines 802-810). -/
structure PairRec where
  pos : ℤ
  ref_seq : String
  normal_tensor : String
  normal_alt_info : String
  tumor_tensor : String
  tumor_alt_info : String
  variant_type : String
deriving DecidableEq

/-- The per-candidate body of the main loop of `create_pair_tensor`
(lines 761-812).  `candidates_type_dict` is a `defaultdict(str)` (line
534), so reads of absent keys give `""`; `truths_has` models membership in
`truths_variant_dict`.  `tensor_infos_dict` at line 768 is `defaultdict()`
with NO default factory, so accessing a key that was never assigned (which
happens exactly when that sample's `generate_tensor` returned `None` and
line 795 `continue`d past the assignment) raises an uncaught `KeyError`
when line 799 evaluates `tensor_infos_dict['normal']` and
`tensor_infos_dict['tumor']`; that is modelled as `.error .keyError`.  When
both samples produced tensors, `get_key_list` (lines 496-503) iterates the
product of two length-1 index ranges, yielding exactly one record. -/
def create_pair_tensor_pos (P : Profile) (ext : Ext)
    (mask_low_bq tensor_sample_mode : Bool)
    (candidates_type_dict : List (ℤ × String)) (truths_has : ℤ → Bool)
    (haplotag_dict normal_hap_dict tumor_hap_dict : String → ℕ)
    (normal_pileup_dict tumor_pileup_dict : List (ℤ × Position))
    (normal_max_depth tumor_max_depth : ℕ) (sample : ℕ → ℕ → List ℕ)
    (reference_sequence : List Char) (reference_start : ℤ)
    (confident_bed : Option (ℤ → ℤ → Bool)) (pos : ℤ) :
    Except PyErr (List PairRec) :=
  if (dictFind pos normal_pileup_dict).isNone ∨
      (dictFind pos tumor_pileup_dict).isNone then .ok []
  else
    let ref_seq := (listSliceZ reference_sequence
      (pos - reference_start - P.flankingBaseNum)
      (pos - reference_start + P.flankingBaseNum + 1)).map Char.toUpper
    let variant_type := match dictFind pos candidates_type_dict with
      | some t => t
      | none => "unknown"
    let use_tsm : Bool := if tensor_sample_mode = true ∧
        (dictFind pos candidates_type_dict).getD "" = "homo_somatic" ∧
        truths_has pos = true then true else false
    let normal_entry := generate_tensor P ext mask_low_bq pos
      (sorted_by_hap_read_name P sample pos haplotag_dict
        normal_pileup_dict normal_hap_dict normal_max_depth use_tsm)
      normal_pileup_dict ref_seq reference_sequence reference_start
      confident_bed false normal_hap_dict
    let tumor_entry := generate_tensor P ext mask_low_bq pos
      (sorted_by_hap_read_name P sample pos haplotag_dict
        tumor_pileup_dict tumor_hap_dict tumor_max_depth use_tsm)
      tumor_pileup_dict ref_seq reference_sequence reference_start
      confident_bed true tumor_hap_dict
    match normal_entry, tumor_entry with
    | some ng, some tg =>
        .ok [⟨pos, String.mk ref_seq, ng.tensor_str, ng.alt_info,
          tg.tensor_str, tg.alt_info, variant_type⟩]
    | _, _ => .error .keyError

/-- C8: at a candidate position present in both pileup dicts, with a
confident BED provided whose intervals miss the window, both
`generate_tensor` calls return `None`, no key is ever assigned into the
factory-less `defaultdict()` of line 768, and line 799's
`tensor_infos_dict['normal']` raises an uncaught KeyError — the skip is
chunk-fatal, not the local no-output skip the claim describes. -/
theorem confident_bed_keyerror :
    create_pair_tensor_pos ⟨1, 1, 1, 1⟩
      ⟨fun x => x, fun x => x, fun _ => 0, fun _ => 100⟩ false false
      [] (fun _ => false) (fun _ => 0) (fun _ => 0) (fun _ => 0)
      [(10, ⟨10, 'A', ["r1"], [('A', "")], ['I'], ['J'], 0, some 1⟩)]
      [(10, ⟨10, 'C', ["r2"], [('C', "")], ['I'], ['J'], 0, some 1⟩)]
      5 5 (fun _ k => List.range k) "TTAGT".toList 8
      (some (fun _ _ => false)) 10 = .error .keyError := by decide

/-! ## Het-SNP phasing selector
(`select_hetero_snp_for_phasing.py`, lines 40-127) -/

/-- One parsed data row of a VCF (columns 0, 1, 3, 4, 5, 9 and the raw
line).  Header rows (leading `#`) only accumulate into the copied-out
header text (lines 56-57, 80-81) and are outside the model. -/
structure VcfRow where
  ctg : String
  pos : ℤ
  ref_base : String
  alt_base : String
  qual : ℚ
  sample : String
  raw : String
deriving DecidableEq

/-- `columns[9].split(':')[0].replace('|', '/')` (lines 66, 89); for the
single-character pattern a Python `str.replace` is a character map. -/
def genotypeOf (s : String) : String :=
  String.mk (((s.splitOn ":").headD "").toList.map
    (fun c => if c = '|' then '/' else c))

/-- The shared per-row gate (lines 68-69, 91-92): single-base REF and ALT
and genotype `0/1` or `1/0`. -/
def isHetSnv (r : VcfRow) : Bool :=
  if r.ref_base.length = 1 ∧ r.alt_base.length = 1 ∧
      (genotypeOf r.sample = "0/1" ∨ genotypeOf r.sample = "1/0") then true
  else false

/-- The contig filter `if contig_name and contig_name != ctg_name:
continue` (lines 61-62, 84-85); a `None` (or empty, which is falsy)
`--ctg_name` disables the filter and is modelled as `none`. -/
def contigOk (contig : Option String) (r : VcfRow) : Bool :=
  match contig with
  | some c => if c = r.ctg then true else false
  | none => true

/-- One row of the normal-VCF scan (lines 54-72): on a passing het SNV,
write `normal_qual_dict[pos]` and `variant_dict[pos]`. -/
def normalStep (contig : Option String)
    (acc : List (ℤ × (String × String × ℚ × String)) × List (ℤ × ℚ))
    (r : VcfRow) :
    List (ℤ × (String × String × ℚ × String)) × List (ℤ × ℚ) :=
  if contigOk contig r = false then acc
  else if isHetSnv r = false then acc
  else (dictInsert r.pos (r.ref_base, r.alt_base, r.qual, r.raw) acc.1,
    dictInsert r.pos r.qual acc.2)

/-- The normal-VCF scan: `(variant_dict, normal_qual_dict)`. -/
def normalScan (contig : Option String) (rows : List VcfRow) :
    List (ℤ × (String × String × ℚ × String)) × List (ℤ × ℚ) :=
  rows.foldl (normalStep contig) ([], [])

/-- State of the tumor-VCF scan (lines 74-104). -/
structure TScanState where
  tumor_qual_dict : List (ℤ × ℚ)
  tumor_variant_dict : List (ℤ × String)
  intersect_pos : List ℤ
  not_found : ℕ
  not_match : ℕ
deriving DecidableEq

/-- `set.add` keeping first-insertion order. -/
def setAdd (p : ℤ) (l : List ℤ) : List ℤ := if p ∈ l then l else l ++ [p]

/-- One row of the tumor-VCF scan (lines 78-104): always record
`tumor_qual_dict[pos]`; drop tumor-unique rows below `min_qual`
(not-found) and rows whose REF/ALT mismatch the normal record (not-match);
otherwise record `tumor_variant_dict[pos]` and add to the intersection. -/
def tumorStep (contig : Option String) (min_qual : ℚ)
    (vd : List (ℤ × (String × String × ℚ × String)))
    (st : TScanState) (r : VcfRow) : TScanState :=
  if contigOk contig r = false then st
  else if isHetSnv r = false then st
  else
    let tq := dictInsert r.pos r.qual st.tumor_qual_dict
    if (dictFind r.pos vd).isNone ∧ r.qual < min_qual then
      ⟨tq, st.tumor_variant_dict, st.intersect_pos, st.not_found + 1,
        st.not_match⟩
    else
      match dictFind r.pos vd with
      | some v =>
          if v.1 ≠ r.ref_base ∨ v.2.1 ≠ r.alt_base then
            ⟨tq, st.tumor_variant_dict, st.intersect_pos, st.not_found,
              st.not_match + 1⟩
          else
            ⟨tq, dictInsert r.pos r.raw st.tumor_variant_dict,
              setAdd r.pos st.intersect_pos, st.not_found, st.not_match⟩
      | none =>
          ⟨tq, dictInsert r.pos r.raw st.tumor_variant_dict,
            setAdd r.pos st.intersect_pos, st.not_found, st.not_match⟩

/-- The tumor-VCF scan. -/
def tumorScan (contig : Option String) (min_qual : ℚ)
    (vd : List (ℤ × (String × String × ℚ × String)))
    (rows : List VcfRow) : TScanState :=
  rows.foldl (tumorStep contig min_qual vd) ⟨[], [], [], 0, 0⟩

/-- One of the two low-quality tails (lines 106-107): ascending stable
sort of the qual dict by value, truncate-to-int of `pct × N` items, keys.
For the non-negative `--var_pct_full` the Python `int()` truncation equals
the floor. -/
def lowQualSet (pct : ℚ) (qd : List (ℤ × ℚ)) : List ℤ :=
  ((List.insertionSort (fun a b : ℤ × ℚ => a.2 ≤ b.2) qd).take
    ((pct * qd.length : ℚ).floor.toNat)).map Prod.fst

/-- The whole selector (lines 40-127): the rows written out, as
`(pos, tumor row)` pairs sorted by position (lines 110-116, 125-126). -/
def select_hetero_snp_for_phasing (contig : Option String)
    (min_qual pct : ℚ) (normal_rows tumor_rows : List VcfRow) :
    List (ℤ × String) :=
  let nd := normalScan contig normal_rows
  let ts := tumorScan contig min_qual nd.1 tumor_rows
  let nlq := lowQualSet pct nd.2
  let tlq := lowQualSet pct ts.tumor_qual_dict
  List.insertionSort (fun a b : ℤ × String => a.1 ≤ b.1)
    ((ts.intersect_pos.filter (fun p => decide (p ∉ nlq ∧ p ∉ tlq))).map
      (fun p => (p, (dictFind p ts.tumor_variant_dict).getD "")))

/-- The retention condition for one tumor row at position `pos`, relative
to the normal `variant_dict`. -/
def keepTumor (contig : Option String) (min_qual : ℚ)
    (vd : List (ℤ × (String × String × ℚ × String)))
    (pos : ℤ) (r : VcfRow) : Prop :=
  contigOk contig r = true ∧ isHetSnv r = true ∧ r.pos = pos ∧
    match dictFind pos vd with
    | some v => v.1 = r.ref_base ∧ v.2.1 = r.alt_base
    | none => min_qual ≤ r.qual

lemma mem_setAdd (p q : ℤ) (l : List ℤ) :
    p ∈ setAdd q l ↔ p ∈ l ∨ p = q := by
  unfold setAdd
  split_ifs with h
  · constructor
    · exact fun hp => Or.inl hp
    · rintro (hp | rfl)
      · exact hp
      · exact h
  · simp

lemma dictFind_dictInsert {α β : Type} [DecidableEq α] (k x : α) (v : β) :
    ∀ l : List (α × β),
      dictFind x (dictInsert k v l) =
        if k = x then some v else dictFind x l := by
  intro l
  induction l with
  | nil => simp [dictInsert, dictFind]
  | cons a t ih =>
      obtain ⟨k0, v0⟩ := a
      by_cases hk : k0 = k
      · subst hk
        simp only [dictInsert, if_pos rfl]
        by_cases hx : k0 = x
        · subst hx
          simp [dictFind]
        · simp [dictFind, hx]
      · simp only [dictInsert, if_neg hk]
        by_cases hx : k0 = x
        · subst hx
          have : ¬k = k0 := fun h => hk h.symm
          simp [dictFind, this]
        · simp [dictFind, hx, ih]

lemma tumorScan_intersect_aux (contig : Option String) (min_qual : ℚ)
    (vd : List (ℤ × (String × String × ℚ × String))) (pos : ℤ) :
    ∀ (rows : List VcfRow) (st : TScanState),
      (pos ∈ (rows.foldl (tumorStep contig min_qual vd) st).intersect_pos ↔
        pos ∈ st.intersect_pos ∨ ∃ r ∈ rows, keepTumor contig min_qual vd pos r) := by
  intro rows
  induction rows with
  | nil => intro st; simp
  | cons r rows ih =>
      intro st
      rw [List.foldl_cons, ih (tumorStep contig min_qual vd st r),
        List.exists_mem_cons_iff]
      have hstep : pos ∈ (tumorStep contig min_qual vd st r).intersect_pos ↔
          pos ∈ st.intersect_pos ∨ keepTumor contig min_qual vd pos r := by
        unfold tumorStep keepTumor
        split_ifs with hctg hhet hlow
        · rw [hctg]
          simp
        · rw [hhet]
          simp
        · -- not-found: tumor-unique below min_qual, intersect unchanged
          dsimp only
          constructor
          · exact fun hm => Or.inl hm
          · rintro (hm | ⟨-, -, rfl, hkeep⟩)
            · exact hm
            · rcases Option.isNone_iff_eq_none.mp hlow.1 with hnone
              rw [hnone] at hkeep
              exact absurd hkeep (not_le.mpr hlow.2)
        · -- past the low-qual skip
          have hctg2 : contigOk contig r = true := by
            revert hctg; cases contigOk contig r <;> simp
          have hhet2 : isHetSnv r = true := by
            revert hhet; cases isHetSnv r <;> simp
          cases hfind : dictFind r.pos vd with
          | some v =>
              dsimp only
              by_cases hmis : v.1 ≠ r.ref_base ∨ v.2.1 ≠ r.alt_base
              · rw [if_pos hmis]
                dsimp only
                constructor
                · exact fun hm => Or.inl hm
                · rintro (hm | ⟨-, -, rfl, hkeep⟩)
                  · exact hm
                  · rw [hfind] at hkeep
                    rcases hmis with hm1 | hm1
                    · exact absurd hkeep.1 hm1
                    · exact absurd hkeep.2 hm1
              · rw [if_neg hmis]
                dsimp only
                rw [mem_setAdd]
                push_neg at hmis
                constructor
                · rintro (hm | rfl)
                  · exact Or.inl hm
                  · refine Or.inr ⟨hctg2, hhet2, rfl, ?_⟩
                    rw [hfind]
                    exact hmis
                · rintro (hm | ⟨-, -, rfl, -⟩)
                  · exact Or.inl hm
                  · exact Or.inr rfl
          | none =>
              dsimp only
              rw [mem_setAdd]
              have hq : min_qual ≤ r.qual := by
                by_contra hq
                exact hlow ⟨Option.isNone_iff_eq_none.mpr hfind, not_le.mp hq⟩
              constructor
              · rintro (hm | rfl)
                · exact Or.inl hm
                · refine Or.inr ⟨hctg2, hhet2, rfl, ?_⟩
                  rw [hfind]
                  exact hq
              · rintro (hm | ⟨-, -, rfl, -⟩)
                · exact Or.inl hm
                · exact Or.inr rfl
      rw [hstep]
      tauto

lemma normalScan_keys_aux (contig : Option String) (pos : ℤ) :
    ∀ (rows : List VcfRow)
      (acc : List (ℤ × (String × String × ℚ × String)) × List (ℤ × ℚ)),
      ((dictFind pos (rows.foldl (normalStep contig) acc).1).isSome = true ↔
        (dictFind pos acc.1).isSome = true ∨
          ∃ r ∈ rows, contigOk contig r = true ∧ isHetSnv r = true ∧
            r.pos = pos) := by
  intro rows
  induction rows with
  | nil => intro acc; simp
  | cons r rows ih =>
      intro acc
      rw [List.foldl_cons, ih (normalStep contig acc r),
        List.exists_mem_cons_iff]
      have hstep : (dictFind pos (normalStep contig acc r).1).isSome = true ↔
          (dictFind pos acc.1).isSome = true ∨
            (contigOk contig r = true ∧ isHetSnv r = true ∧ r.pos = pos) := by
        unfold normalStep
        split_ifs with hctg hhet
        · rw [hctg]
          simp
        · rw [hhet]
          simp
        · have hctg2 : contigOk contig r = true := by
            revert hctg; cases contigOk contig r <;> simp
          have hhet2 : isHetSnv r = true := by
            revert hhet; cases isHetSnv r <;> simp
          dsimp only
          rw [dictFind_dictInsert]
          by_cases hp : r.pos = pos
          · rw [if_pos hp]
            simp [hp, hctg2, hhet2]
          · rw [if_neg hp]
            simp [hp, hctg2, hhet2]
      rw [hstep]
      tauto

lemma lowQualSet_length (pct : ℚ) (qd : List (ℤ × ℚ)) :
    (lowQualSet pct qd).length =
      min ((pct * qd.length : ℚ).floor.toNat) qd.length := by
  unfold lowQualSet
  rw [List.length_map, List.length_take,
    (List.perm_insertionSort _ _).length_eq]

/-- C7: a position is written out by the het-SNP selector iff it is in the
normal/tumor intersection and in neither low-quality tail; a tumor row
enters the intersection iff it passes the het-SNV gate and either matches
the normal REF/ALT at its position (mismatches are dropped) or, when
tumor-unique, has quality at least `min_qual`; a position has a normal
`variant_dict` record iff some normal row is a passing het SNV there; and
each low-quality tail has exactly `min(int(pct·N), N)` members. -/
theorem het_snp_selector_spec (contig : Option String)
    (min_qual pct : ℚ) (nrows trows : List VcfRow) (pos : ℤ) :
    (pos ∈ (select_hetero_snp_for_phasing contig min_qual pct nrows
        trows).map Prod.fst ↔
      (pos ∈ (tumorScan contig min_qual (normalScan contig nrows).1
          trows).intersect_pos
        ∧ pos ∉ lowQualSet pct (normalScan contig nrows).2
        ∧ pos ∉ lowQualSet pct (tumorScan contig min_qual
            (normalScan contig nrows).1 trows).tumor_qual_dict))
    ∧ (pos ∈ (tumorScan contig min_qual (normalScan contig nrows).1
          trows).intersect_pos ↔
        ∃ r ∈ trows, keepTumor contig min_qual
          (normalScan contig nrows).1 pos r)
    ∧ ((dictFind pos (normalScan contig nrows).1).isSome = true ↔
        ∃ r ∈ nrows, contigOk contig r = true ∧ isHetSnv r = true ∧
          r.pos = pos)
    ∧ (lowQualSet pct (normalScan contig nrows).2).length =
        min ((pct * ((normalScan contig nrows).2.length : ℚ)).floor.toNat)
          (normalScan contig nrows).2.length := by
  refine ⟨?_, ?_, ?_, lowQualSet_length pct _⟩
  · unfold select_hetero_snp_for_phasing
    dsimp only
    rw [List.Perm.mem_iff ((List.perm_insertionSort _ _).map Prod.fst),
      List.map_map]
    have : (Prod.fst ∘ fun p : ℤ =>
        (p, (dictFind p (tumorScan contig min_qual
          (normalScan contig nrows).1 trows).tumor_variant_dict).getD ""))
        = id := rfl
    rw [this, List.map_id, List.mem_filter]
    simp only [decide_eq_true_eq]
  · have h := tumorScan_intersect_aux contig min_qual
      (normalScan contig nrows).1 pos trows ⟨[], [], [], 0, 0⟩
    unfold tumorScan
    rw [h]
    simp
  · have h := normalScan_keys_aux contig pos nrows ([], [])
    unfold normalScan
    rw [h]
    simp [dictFind]

end ClairS
